import Mathlib

/-!
Shallow embedding of the audiotest repository (src/rust/src/decode_symphonia.rs,
src/rust/src/misc.rs, src/rust/src/lib.rs).

Modelling conventions:
* `f64` values are modelled as exact rationals (`ℚ`); the concrete inputs used in
  witnesses and counterexamples are all exactly representable in binary64, so the
  rational model agrees with the floating-point evaluation there.
* Rust `as u32` casts of nonnegative floats truncate toward zero and saturate at
  `u32::MAX`; this is `f64toU32` below.
* Panics (`panic!` / `expect`) are modelled as `Except.error` values; the
  file/probe/metadata stage (external symphonia collaborators) is modelled by
  passing the already-extracted metadata (`channels`, `n_frames`, `sample_rate`)
  and the packet stream (`List PacketEvent`) as inputs.
* The `ndarray::Array2<f64>` matrix is modelled as `Mat`: explicit row/column
  counts plus a total data function; out-of-bounds writes (which panic in
  ndarray) are modelled by `setCell` returning `none`.
* The one-time `SampleBuffer` allocation (decode_symphonia.rs lines 112-126) is
  pure capacity bookkeeping with no effect on the produced sample values, so it
  is not represented; `DecodeResult.ok samples` is the interleaved content the
  code reads out of `buf.samples()`.
-/

namespace AudioTest

/-- Dense 2-D sample matrix, shape (rows = channels, cols = frames), mirroring
`ndarray::Array2<f64>` in the source. -/
structure Mat where
  rows : Nat
  cols : Nat
  data : Nat → Nat → ℚ

/-- `Array2::<f64>::zeros((channels, duration_to_decode_samples))`,
decode_symphonia.rs line 81. -/
def mkZeros (r c : Nat) : Mat :=
  ⟨r, c, fun _ _ => 0⟩

/-- `arr[[ch, idx]] = *sample` (decode_symphonia.rs line 146); ndarray panics on
an out-of-bounds index, modelled by `none`. -/
def setCell (m : Mat) (ch idx : Nat) (v : ℚ) : Option Mat :=
  if ch < m.rows ∧ idx < m.cols then
    some ⟨m.rows, m.cols, fun c j => if c = ch ∧ j = idx then v else m.data c j⟩
  else none

/-- misc.rs lines 6-11: `arr.mean_axis(Axis(0)).expect(..).into_shape((1, ncols))`.
`mean_axis` returns `None` exactly when the averaged axis has length zero. -/
def to_mono_ndarray (m : Mat) : Option Mat :=
  if m.rows = 0 then none
  else some ⟨1, m.cols, fun _ j => (∑ c ∈ Finset.range m.rows, m.data c j) / (m.rows : ℚ)⟩

/-- Result of `decoder.decode(&packet)` (decode_symphonia.rs lines 102-162):
either the interleaved `f64` samples read from the sample buffer, a
`Error::DecodeError` with its message, or any other decoder error. -/
inductive DecodeResult where
  | ok (samples : List ℚ)
  | decodeErr (msg : String)
  | otherErr

/-- One outcome of `format.next_packet()` (decode_symphonia.rs lines 86-94):
a packet carrying its track id and what the decoder would produce for it, the
`UnexpectedEof` I/O error, or any other packet-read error. -/
inductive PacketEvent where
  | packet (trackId : Nat) (dec : DecodeResult)
  | ioEof
  | readErr

/-- The panics of `decode_symphonia::load`, in source order. -/
inductive LoadError where
  | durationNotPositive
  | offsetTooLarge
  | sampleCountOverflow
  | divisionByZero
  | indexOutOfBounds
  | decodeFault (msg : String)
  | packetReadError
  | meanAxisFailed
deriving DecidableEq

/-- Rust `as u32` of a nonnegative-or-negative `f64`: truncate toward zero,
saturate into `[0, u32::MAX]` (decode_symphonia.rs lines 71 and 77). -/
def f64toU32 (q : ℚ) : Nat :=
  if q < 0 then 0 else min (Int.toNat ⌊q⌋) (2 ^ 32 - 1)

/-- decode_symphonia.rs lines 60-65:
`min(duration.unwrap_or(file_time_duration - offset), file_time_duration - offset)`
where `file_time_duration = n_frames as f64 / sr as f64`. -/
def effective_duration (nFrames sr : Nat) (offset : ℚ) (duration : Option ℚ) : ℚ :=
  min (duration.getD ((nFrames : ℚ) / (sr : ℚ) - offset)) ((nFrames : ℚ) / (sr : ℚ) - offset)

/-- decode_symphonia.rs line 71: `(offset * (sr as f64)) as u32`. -/
def offset_frames (sr : Nat) (offset : ℚ) : Nat :=
  f64toU32 (offset * (sr : ℚ))

/-- decode_symphonia.rs line 77: `(duration_to_decode * (sr as f64)) as u32`. -/
def length_frames (nFrames sr : Nat) (offset : ℚ) (duration : Option ℚ) : Nat :=
  f64toU32 (effective_duration nFrames sr offset duration * (sr : ℚ))

/-- The `for (n, sample) in samples.iter().enumerate()` loop of
decode_symphonia.rs lines 144-157. Arguments: remaining samples, enumeration
index `n`, write cursor `idx`, `duration_to_decode_samples`, matrix. Returns
the updated `(idx, duration_to_decode_samples, arr)` plus whether `break 'outer`
fired. -/
def consumeRun (channels : Nat) : List ℚ → Nat → Nat → Nat → Mat →
    Except LoadError (Nat × Nat × Mat × Bool)
  | [], _, idx, dur, arr => .ok (idx, dur, arr, false)
  | s :: rest, n, idx, dur, arr =>
    let ch := n % channels
    match setCell arr ch idx s with
    | none => .error .indexOutOfBounds
    | some arr2 =>
      let idx2 := if ch = channels - 1 then idx + 1 else idx
      let dur2 := if ch = channels - 1 then dur - 1 else dur
      if dur2 = 0 then .ok (idx2, dur2, arr2, true)
      else consumeRun channels rest (n + 1) idx2 dur2 arr2

/-- Mutable state of the `'outer` packet loop: `offset_samples`,
`duration_to_decode_samples`, `idx`, and the matrix being filled. -/
structure LoopState where
  offsetSamples : Nat
  durationSamples : Nat
  idx : Nat
  arr : Mat

/-- The `'outer: loop` of decode_symphonia.rs lines 84-163, one packet event per
step. `UnexpectedEof` (and exhaustion of the event list, i.e. the source
producing EOF forever) breaks out; other packet-read errors panic; packets of a
different track are skipped; `DecodeError` panics; any other decode error breaks
out; an accepted run first has its length checked (`u32::try_from`), then the
offset-absorption logic of lines 135-142 runs, then `consumeRun`. -/
def runLoop (channels trackId : Nat) : List PacketEvent → LoopState → Except LoadError Mat
  | [], st => .ok st.arr
  | .ioEof :: _, st => .ok st.arr
  | .readErr :: _, _ => .error .packetReadError
  | .packet tid dec :: rest, st =>
    if tid ≠ trackId then runLoop channels trackId rest st
    else match dec with
      | .decodeErr msg => .error (.decodeFault msg)
      | .otherErr => .ok st.arr
      | .ok samples =>
        if 2 ^ 32 ≤ samples.length then .error .sampleCountOverflow
        else if channels = 0 then .error .divisionByZero
        else
          let framesInBlock := samples.length / channels
          if framesInBlock ≤ st.offsetSamples then
            runLoop channels trackId rest
              ⟨st.offsetSamples - framesInBlock, st.durationSamples, st.idx, st.arr⟩
          else
            match consumeRun channels (samples.drop (st.offsetSamples * channels))
                0 st.idx st.durationSamples st.arr with
            | .error e => .error e
            | .ok (idx2, dur2, arr2, brk) =>
              if brk then .ok arr2
              else runLoop channels trackId rest ⟨0, dur2, idx2, arr2⟩

/-- `decode_symphonia::load`, lines 17-170, from the point where the external
probe/decoder collaborators have yielded the track metadata
(`channels`, `n_frames`, `sample_rate`) and the packet stream. -/
def load (channels nFrames sr : Nat) (mono : Bool) (offset : ℚ) (duration : Option ℚ)
    (trackId : Nat) (events : List PacketEvent) : Except LoadError Mat :=
  if effective_duration nFrames sr offset duration ≤ 0 then .error .durationNotPositive
  else if nFrames ≤ offset_frames sr offset then .error .offsetTooLarge
  else
    match runLoop channels trackId events
        ⟨offset_frames sr offset, length_frames nFrames sr offset duration, 0,
          mkZeros channels (length_frames nFrames sr offset duration)⟩ with
    | .error e => .error e
    | .ok arr2 =>
      if mono then
        match to_mono_ndarray arr2 with
        | none => .error .meanAxisFailed
        | some arr3 => .ok arr3
      else .ok arr2

/-- Which branch of `get_duration` (lib.rs lines 84-119) is taken. -/
inductive DurationSource where
  | file
  | shape
  | buffer
deriving DecidableEq

/-- The `match (r_arr.is_null(), fname, s.is_null())` dispatch of lib.rs lines
84-118; `none` is the final panicking arm. -/
def get_duration_dispatch (rArrIsNull : Bool) (fname : Option String) (sIsNull : Bool) :
    Option DurationSource :=
  match rArrIsNull, fname, sIsNull with
  | _, some _, _ => some .file
  | _, none, false => some .shape
  | false, none, true => some .buffer
  | true, none, true => none

/-- Two's-complement wrap-around of 32-bit signed arithmetic: Rust `i32`
operations wrap to `[-2^31, 2^31)` on overflow in release builds (debug builds
panic at the same point, so either way the algebraic value is not returned). -/
def i32wrap (z : ℤ) : ℤ :=
  (z + 2 ^ 31) % 2 ^ 32 - 2 ^ 31

/-- The time-frequency-shape branch of `get_duration` (lib.rs lines 94-111),
with `n_frames = dim[0]` already extracted. All of `sr`, `n_fft`, `hop_length`,
`n_frames` are `i32` in the source, so every arithmetic step wraps at 32 bits
(`i32wrap`); Rust's truncating `/` is `Int.tdiv` (its operands here cannot
overflow: `n_fft / 2` and, for positive in-range `n_fft`, `2 * (n_fft / 2) ≤
n_fft`). -/
def get_duration_shape (sr nFft hopLength : ℤ) (center : Bool) (nFrames : ℤ) :
    Except String ℚ :=
  if sr ≤ 0 then .error "sr must be positive"
  else if nFft ≤ 0 then .error "n_fft must be positive"
  else if hopLength ≤ 0 then .error "hop_length must be positive"
  else
    let nSamples := i32wrap (nFft + i32wrap (hopLength * i32wrap (nFrames - 1)))
    let nSamples2 :=
      if center then i32wrap (nSamples - i32wrap (2 * Int.tdiv nFft 2)) else nSamples
    .ok ((nSamples2 : ℚ) / (sr : ℚ))

/-- All interleaved samples the decoder produces for the selected track, in
stream order: the "source frames" the requested window is cut from. -/
def trackSamples (trackId : Nat) (events : List PacketEvent) : List ℚ :=
  (events.filterMap fun e =>
    match e with
    | .packet tid (.ok s) => if tid = trackId then some s else none
    | _ => none).flatten

/-- A packet event that lets the loop keep collecting: packets of other tracks
(skipped before decoding, any decoder outcome allowed), or selected-track
packets that decode to a whole number of frames and pass the `u32` length
check. EOF and error events are excluded. -/
def goodEvent (channels trackId : Nat) : PacketEvent → Bool
  | .packet tid (.ok s) =>
    if tid = trackId then decide (s.length % channels = 0) && decide (s.length < 2 ^ 32)
    else true
  | .packet tid _ => decide (tid ≠ trackId)
  | .ioEof => false
  | .readErr => false

/-- Writing one frame's interleaved samples down column `idx`, starting at
channel row `c0`: the per-frame effect of the sample loop. -/
def writeFrameAux (arr : Mat) (idx : Nat) : List ℚ → Nat → Option Mat
  | [], _ => some arr
  | s :: rest, c0 =>
    match setCell arr c0 idx s with
    | none => none
    | some arr2 => writeFrameAux arr2 idx rest (c0 + 1)

/-- Whether a `load` result is a success (the Rust function returned instead of
panicking). -/
def exceptIsOk (r : Except LoadError Mat) : Bool :=
  match r with
  | .ok _ => true
  | .error _ => false

/-- The sample at cell `(c, j)` of a successful result. -/
def resultCell (r : Except LoadError Mat) (c j : Nat) : Option ℚ :=
  match r with
  | .ok m => some (m.data c j)
  | .error _ => none

/-- The shape `(rows, cols)` of a successful result. -/
def resultShape (r : Except LoadError Mat) : Option (Nat × Nat) :=
  match r with
  | .ok m => some (m.rows, m.cols)
  | .error _ => none

/-! ### Helper lemmas about the cast and the matrix primitives -/

theorem f64toU32_eval (q : ℚ) (n : ℕ) (h1 : (n : ℚ) ≤ q) (h2 : q < n + 1)
    (h3 : n ≤ 2 ^ 32 - 1) : f64toU32 q = n := by
  have hq : ¬ q < 0 := by
    intro hc
    have h0 : (0 : ℚ) ≤ (n : ℚ) := by positivity
    linarith
  have hf : ⌊q⌋ = (n : ℤ) := by
    rw [Int.floor_eq_iff]
    constructor
    · exact_mod_cast h1
    · exact_mod_cast h2
  simp [f64toU32, hq, hf]
  omega

theorem f64toU32_of_floor (q : ℚ) (z : ℤ) (hq : 0 ≤ q) (hf : ⌊q⌋ = z)
    (hcap : z ≤ 2 ^ 32 - 1) : f64toU32 q = Int.toNat z := by
  have h0 : 0 ≤ z := hf ▸ Int.floor_nonneg.mpr hq
  have hq2 : ¬ q < 0 := not_lt.mpr hq
  simp [f64toU32, hq2, hf]
  omega

theorem f64toU32_sat (q : ℚ) (hq : (2 : ℚ) ^ 32 ≤ q) : f64toU32 q = 2 ^ 32 - 1 := by
  have h0 : ¬ q < 0 := by
    intro hc
    have : (0 : ℚ) < (2 : ℚ) ^ 32 := by positivity
    linarith
  have hf : (2 ^ 32 : ℤ) ≤ ⌊q⌋ := by
    rw [Int.le_floor]
    exact_mod_cast hq
  simp [f64toU32, h0]
  omega

theorem floor_natCast_sub (n : ℕ) (x : ℚ) : ⌊(n : ℚ) - x⌋ = (n : ℤ) - ⌈x⌉ := by
  rw [sub_eq_neg_add, show ((n : ℚ)) = ((n : ℤ) : ℚ) by push_cast; ring,
    Int.floor_add_int, Int.floor_neg]
  omega

theorem setCell_eq_some (m : Mat) (ch idx : Nat) (v : ℚ) (m2 : Mat)
    (h : setCell m ch idx v = some m2) :
    m2.rows = m.rows ∧ m2.cols = m.cols ∧ ch < m.rows ∧ idx < m.cols ∧
      ∀ c j, m2.data c j = if c = ch ∧ j = idx then v else m.data c j := by
  by_cases hb : ch < m.rows ∧ idx < m.cols
  · rw [setCell, if_pos hb] at h
    obtain rfl := Option.some_injective _ h.symm
    exact ⟨rfl, rfl, hb.1, hb.2, fun c j => rfl⟩
  · rw [setCell, if_neg hb] at h
    exact absurd h (by simp)

theorem setCell_some_of_lt (m : Mat) (ch idx : Nat) (v : ℚ)
    (h1 : ch < m.rows) (h2 : idx < m.cols) :
    setCell m ch idx v =
      some ⟨m.rows, m.cols, fun c j => if c = ch ∧ j = idx then v else m.data c j⟩ := by
  rw [setCell, if_pos ⟨h1, h2⟩]

/-! ### Step equations for the loop functions -/

theorem consumeRun_nil {channels n idx dur : Nat} {arr : Mat} :
    consumeRun channels [] n idx dur arr = .ok (idx, dur, arr, false) := rfl

theorem consumeRun_cons {channels : Nat} {x : ℚ} {rest : List ℚ} {n idx dur : Nat} {arr : Mat} :
    consumeRun channels (x :: rest) n idx dur arr =
      match setCell arr (n % channels) idx x with
      | none => .error .indexOutOfBounds
      | some arr2 =>
        if (if n % channels = channels - 1 then dur - 1 else dur) = 0
        then .ok ((if n % channels = channels - 1 then idx + 1 else idx),
                  (if n % channels = channels - 1 then dur - 1 else dur), arr2, true)
        else consumeRun channels rest (n + 1)
              (if n % channels = channels - 1 then idx + 1 else idx)
              (if n % channels = channels - 1 then dur - 1 else dur) arr2 := rfl

theorem runLoop_nil {channels trackId : Nat} {st : LoopState} :
    runLoop channels trackId [] st = .ok st.arr := rfl

theorem runLoop_eof {channels trackId : Nat} {rest : List PacketEvent} {st : LoopState} :
    runLoop channels trackId (.ioEof :: rest) st = .ok st.arr := rfl

theorem runLoop_readErr {channels trackId : Nat} {rest : List PacketEvent} {st : LoopState} :
    runLoop channels trackId (.readErr :: rest) st = .error .packetReadError := rfl

theorem runLoop_skip {channels trackId tid : Nat} {dec : DecodeResult}
    {rest : List PacketEvent} {st : LoopState} (h : tid ≠ trackId) :
    runLoop channels trackId (.packet tid dec :: rest) st = runLoop channels trackId rest st := by
  simp [runLoop, h]

theorem runLoop_decodeErr {channels trackId : Nat} {msg : String}
    {rest : List PacketEvent} {st : LoopState} :
    runLoop channels trackId (.packet trackId (.decodeErr msg) :: rest) st =
      .error (.decodeFault msg) := by
  simp [runLoop]

theorem runLoop_otherErr {channels trackId : Nat} {rest : List PacketEvent} {st : LoopState} :
    runLoop channels trackId (.packet trackId .otherErr :: rest) st = .ok st.arr := by
  simp [runLoop]

theorem runLoop_packet {channels trackId : Nat} {samples : List ℚ}
    {rest : List PacketEvent} {st : LoopState} :
    runLoop channels trackId (.packet trackId (.ok samples) :: rest) st =
      if 2 ^ 32 ≤ samples.length then .error .sampleCountOverflow
      else if channels = 0 then .error .divisionByZero
      else if samples.length / channels ≤ st.offsetSamples then
        runLoop channels trackId rest
          ⟨st.offsetSamples - samples.length / channels, st.durationSamples, st.idx, st.arr⟩
      else match consumeRun channels (samples.drop (st.offsetSamples * channels))
              0 st.idx st.durationSamples st.arr with
        | .error e => .error e
        | .ok (idx2, dur2, arr2, brk) =>
          if brk then .ok arr2
          else runLoop channels trackId rest ⟨0, dur2, idx2, arr2⟩ := by
  simp [runLoop]

/-! ### Preservation lemmas: a successful loop run keeps the matrix shape and
only writes at or left of the final cursor -/

theorem consumeRun_pres (channels : Nat) (s : List ℚ) (n idx dur : Nat) (arr : Mat)
    (idx2 dur2 : Nat) (arr2 : Mat) (brk : Bool)
    (h : consumeRun channels s n idx dur arr = .ok (idx2, dur2, arr2, brk)) :
    arr2.rows = arr.rows ∧ arr2.cols = arr.cols ∧ idx ≤ idx2 ∧
      ∀ c j, idx2 < j → arr2.data c j = arr.data c j := by
  induction s generalizing n idx dur arr with
  | nil =>
    rw [consumeRun_nil] at h
    simp only [Except.ok.injEq, Prod.mk.injEq] at h
    obtain ⟨rfl, rfl, rfl, rfl⟩ := h
    exact ⟨rfl, rfl, Nat.le_refl _, fun c j _ => rfl⟩
  | cons x rest ih =>
    rw [consumeRun_cons] at h
    cases hset : setCell arr (n % channels) idx x with
    | none => rw [hset] at h; cases h
    | some a2 =>
      rw [hset] at h
      obtain ⟨ha2r, ha2c, hchlt, hidxlt, ha2d⟩ := setCell_eq_some _ _ _ _ _ hset
      simp only at h
      by_cases hd : (if n % channels = channels - 1 then dur - 1 else dur) = 0
      · rw [if_pos hd] at h
        simp only [Except.ok.injEq, Prod.mk.injEq] at h
        obtain ⟨h1, h2, h3, h4⟩ := h
        subst h3
        have h5 : idx ≤ idx2 := by rw [← h1]; split <;> omega
        refine ⟨ha2r, ha2c, h5, fun c j hj => ?_⟩
        rw [ha2d]
        have h6 : ¬ (c = n % channels ∧ j = idx) := by
          rintro ⟨-, h7⟩
          omega
        rw [if_neg h6]
      · rw [if_neg hd] at h
        obtain ⟨hr, hc, hle, hdata⟩ := ih _ _ _ _ h
        have h5 : idx ≤ idx2 := le_trans (by split <;> omega) hle
        refine ⟨hr.trans ha2r, hc.trans ha2c, h5, fun c j hj => ?_⟩
        rw [hdata c j hj, ha2d]
        have h6 : ¬ (c = n % channels ∧ j = idx) := by
          rintro ⟨-, h7⟩
          omega
        rw [if_neg h6]

theorem runLoop_pres (channels trackId : Nat) (events : List PacketEvent) (st : LoopState)
    (m : Mat) (h : runLoop channels trackId events st = .ok m) :
    m.rows = st.arr.rows ∧ m.cols = st.arr.cols ∧
      ∃ k, ∀ c j, k ≤ j → m.data c j = st.arr.data c j := by
  induction events generalizing st with
  | nil =>
    rw [runLoop_nil] at h
    injection h with h
    subst h
    exact ⟨rfl, rfl, 0, fun c j _ => rfl⟩
  | cons e rest ih =>
    cases e with
    | ioEof =>
      rw [runLoop_eof] at h
      injection h with h
      subst h
      exact ⟨rfl, rfl, 0, fun c j _ => rfl⟩
    | readErr => rw [runLoop_readErr] at h; cases h
    | packet tid dec =>
      rcases eq_or_ne tid trackId with rfl | ht
      · cases dec with
        | decodeErr msg => rw [runLoop_decodeErr] at h; cases h
        | otherErr =>
          rw [runLoop_otherErr] at h
          injection h with h
          subst h
          exact ⟨rfl, rfl, 0, fun c j _ => rfl⟩
        | ok samples =>
          rw [runLoop_packet] at h
          by_cases hlen : 2 ^ 32 ≤ samples.length
          · rw [if_pos hlen] at h; cases h
          · rw [if_neg hlen] at h
            by_cases hch0 : channels = 0
            · rw [if_pos hch0] at h; cases h
            · rw [if_neg hch0] at h
              by_cases hskip : samples.length / channels ≤ st.offsetSamples
              · rw [if_pos hskip] at h
                exact ih ⟨st.offsetSamples - samples.length / channels,
                  st.durationSamples, st.idx, st.arr⟩ h
              · rw [if_neg hskip] at h
                cases hcr : consumeRun channels (samples.drop (st.offsetSamples * channels))
                    0 st.idx st.durationSamples st.arr with
                | error e => rw [hcr] at h; cases h
                | ok r =>
                  obtain ⟨idx2, dur2, arr2, brk⟩ := r
                  rw [hcr] at h
                  obtain ⟨hr2, hc2, hile, hdat⟩ :=
                    consumeRun_pres _ _ _ _ _ _ _ _ _ _ hcr
                  simp only at h
                  by_cases hbrk : brk = true
                  · rw [if_pos hbrk] at h
                    injection h with h
                    subst h
                    exact ⟨hr2, hc2, idx2 + 1, fun c j hj => hdat c j (by omega)⟩
                  · rw [if_neg hbrk] at h
                    obtain ⟨hr3, hc3, k, hdat3⟩ := ih _ h
                    refine ⟨hr3.trans hr2, hc3.trans hc2, max k (idx2 + 1), fun c j hj => ?_⟩
                    rw [hdat3 c j (le_trans (le_max_left _ _) hj)]
                    exact hdat c j (by have h8 := le_trans (le_max_right _ _) hj; omega)
      · rw [runLoop_skip ht] at h
        exact ih st h

theorem two_mul_tdiv_of_odd (n : ℤ) (h : 0 < n) (h2 : n % 2 = 1) :
    2 * Int.tdiv n 2 = n - 1 := by
  obtain ⟨m, rfl⟩ := Int.eq_ofNat_of_zero_le h.le
  have e : Int.tdiv (m : ℤ) 2 = ((m / 2 : ℕ) : ℤ) := rfl
  rw [e]
  omega

theorem i32wrap_eq_self (z : ℤ) (h1 : -(2 ^ 31) ≤ z) (h2 : z < 2 ^ 31) :
    i32wrap z = z := by
  rw [i32wrap, Int.emod_eq_of_lt (by omega) (by omega)]
  omega

theorem two_mul_tdiv_le (n : ℤ) (h : 0 < n) :
    0 ≤ 2 * Int.tdiv n 2 ∧ 2 * Int.tdiv n 2 ≤ n := by
  obtain ⟨m, rfl⟩ := Int.eq_ofNat_of_zero_le h.le
  have e : Int.tdiv (m : ℤ) 2 = ((m / 2 : ℕ) : ℤ) := rfl
  rw [e]
  omega

/-- C6: `to_mono_ndarray` on a (C, N) matrix with C ≥ 1 returns a (1, N) matrix
whose sample at every frame is the exact arithmetic mean of the C input samples
at that frame, and for C = 1 the output values equal the input values. (The
embedding is purely functional, so the input matrix is never mutated.) -/
theorem c6_to_mono_mean (m : Mat) (h : 1 ≤ m.rows) :
    ∃ m2, to_mono_ndarray m = some m2 ∧ m2.rows = 1 ∧ m2.cols = m.cols ∧
      (∀ c j, m2.data c j = (∑ i ∈ Finset.range m.rows, m.data i j) / (m.rows : ℚ)) ∧
      (m.rows = 1 → ∀ j, m2.data 0 j = m.data 0 j) := by
  have h0 : m.rows ≠ 0 := by omega
  refine ⟨⟨1, m.cols, fun _ j => (∑ i ∈ Finset.range m.rows, m.data i j) / (m.rows : ℚ)⟩,
    ?_, rfl, rfl, fun c j => rfl, fun h1 j => ?_⟩
  · rw [to_mono_ndarray, if_neg h0]
  · show (∑ i ∈ Finset.range m.rows, m.data i j) / (m.rows : ℚ) = m.data 0 j
    rw [h1]
    simp

/-- C6 witness: the mean of the two channels of a concrete (2,1) matrix. -/
theorem c6_to_mono_mean_witness :
    1 ≤ (⟨2, 1, fun c _ => (c : ℚ)⟩ : Mat).rows ∧
    ∃ m2, to_mono_ndarray ⟨2, 1, fun c _ => (c : ℚ)⟩ = some m2 ∧ m2.rows = 1 ∧
      m2.cols = (⟨2, 1, fun c _ => (c : ℚ)⟩ : Mat).cols ∧
      (∀ c j, m2.data c j =
        (∑ i ∈ Finset.range (⟨2, 1, fun c _ => (c : ℚ)⟩ : Mat).rows,
          (⟨2, 1, fun c _ => (c : ℚ)⟩ : Mat).data i j) /
          ((⟨2, 1, fun c _ => (c : ℚ)⟩ : Mat).rows : ℚ)) ∧
      ((⟨2, 1, fun c _ => (c : ℚ)⟩ : Mat).rows = 1 →
        ∀ j, m2.data 0 j = (⟨2, 1, fun c _ => (c : ℚ)⟩ : Mat).data 0 j) :=
  ⟨by norm_num, c6_to_mono_mean ⟨2, 1, fun c _ => (c : ℚ)⟩ (by norm_num)⟩

/-- C7 counterexample: the shape-branch arithmetic is `i32` (lib.rs line 102)
and wraps: with `sr = 1`, `n_fft = hop = 2^30`, `n_frames = 3` (all positive,
in `i32` range), `hop*(n_frames-1) = 2^31` wraps to `-2^31` and the program
returns `-2^30 / 1`, not the claimed algebraic value `3 * 2^30 / 1`. -/
theorem c7_get_duration_shape_counterexample :
    get_duration_shape 1 (2 ^ 30) (2 ^ 30) false 3 =
      .ok (((-(2 ^ 30) : ℤ) : ℚ) / ((1 : ℤ) : ℚ))
    ∧ ((-(2 ^ 30) : ℤ) : ℚ) / ((1 : ℤ) : ℚ) ≠
      ((2 ^ 30 + 2 ^ 30 * (3 - 1) -
        (if false then 2 * Int.tdiv (2 ^ 30) 2 else 0) : ℤ) : ℚ) / ((1 : ℤ) : ℚ) := by
  constructor
  · rw [get_duration_shape, if_neg (by decide), if_neg (by decide), if_neg (by decide)]
    dsimp only
    rw [if_neg Bool.false_ne_true]
    have hw : i32wrap (2 ^ 30 + i32wrap (2 ^ 30 * i32wrap (3 - 1))) = -(2 ^ 30) := by
      decide
    rw [hw]
  · have h1 : ((-(2 ^ 30) : ℤ) : ℚ) / ((1 : ℤ) : ℚ) = -(2 ^ 30 : ℚ) := by
      push_cast
      norm_num
    have h2 : ((2 ^ 30 + 2 ^ 30 * (3 - 1) -
        (if false then 2 * Int.tdiv (2 ^ 30) 2 else 0) : ℤ) : ℚ) / ((1 : ℤ) : ℚ) =
        (3 * 2 ^ 30 : ℚ) := by
      rw [if_neg Bool.false_ne_true]
      push_cast
      norm_num
    rw [h1, h2]
    norm_num

/-- C7 (amended): on the time-frequency-shape branch with positive `sr`,
`n_fft`, `hop_length`, and provided the `i32` intermediates
`n_frames - 1`, `hop*(n_frames-1)`, `n_fft + hop*(n_frames-1)` and the centered
difference all stay within `i32` range (so that the 32-bit arithmetic does not
wrap), `get_duration` returns
`(n_fft + hop*(n_frames-1) - (if centered then 2*(n_fft/2) else 0)) / sr` with
truncating integer division, and for odd `n_fft` the centered correction
removes exactly `n_fft - 1` samples; outside that range the `i32` arithmetic
wraps and the algebraic value is not returned. -/
theorem c7_get_duration_shape (sr nFft hop nFrames : ℤ) (center : Bool)
    (hsr : 0 < sr) (hn : 0 < nFft) (hh : 0 < hop)
    (hnCap : nFft < 2 ^ 31)
    (hr1 : -(2 ^ 31) ≤ nFrames - 1 ∧ nFrames - 1 < 2 ^ 31)
    (hr2 : -(2 ^ 31) ≤ hop * (nFrames - 1) ∧ hop * (nFrames - 1) < 2 ^ 31)
    (hr3 : -(2 ^ 31) ≤ nFft + hop * (nFrames - 1) ∧
      nFft + hop * (nFrames - 1) < 2 ^ 31)
    (hr4 : -(2 ^ 31) ≤ nFft + hop * (nFrames - 1) - 2 * Int.tdiv nFft 2 ∧
      nFft + hop * (nFrames - 1) - 2 * Int.tdiv nFft 2 < 2 ^ 31) :
    get_duration_shape sr nFft hop center nFrames =
      .ok (((nFft + hop * (nFrames - 1) -
        (if center then 2 * Int.tdiv nFft 2 else 0) : ℤ) : ℚ) / (sr : ℚ))
    ∧ (center = true → nFft % 2 = 1 →
        get_duration_shape sr nFft hop center nFrames =
          .ok (((nFft + hop * (nFrames - 1) - (nFft - 1) : ℤ) : ℚ) / (sr : ℚ))) := by
  have h1 : ¬ sr ≤ 0 := not_le.mpr hsr
  have h2 : ¬ nFft ≤ 0 := not_le.mpr hn
  have h3 : ¬ hop ≤ 0 := not_le.mpr hh
  have h2t := two_mul_tdiv_le nFft hn
  have hw1 : i32wrap (nFrames - 1) = nFrames - 1 := i32wrap_eq_self _ hr1.1 hr1.2
  have hw2 : i32wrap (hop * (nFrames - 1)) = hop * (nFrames - 1) :=
    i32wrap_eq_self _ hr2.1 hr2.2
  have hw3 : i32wrap (nFft + hop * (nFrames - 1)) = nFft + hop * (nFrames - 1) :=
    i32wrap_eq_self _ hr3.1 hr3.2
  have hw4 : i32wrap (2 * Int.tdiv nFft 2) = 2 * Int.tdiv nFft 2 :=
    i32wrap_eq_self _ (by omega) (by omega)
  have hw5 : i32wrap (nFft + hop * (nFrames - 1) - 2 * Int.tdiv nFft 2) =
      nFft + hop * (nFrames - 1) - 2 * Int.tdiv nFft 2 :=
    i32wrap_eq_self _ hr4.1 hr4.2
  have hmain : get_duration_shape sr nFft hop center nFrames =
      .ok (((nFft + hop * (nFrames - 1) -
        (if center then 2 * Int.tdiv nFft 2 else 0) : ℤ) : ℚ) / (sr : ℚ)) := by
    rw [get_duration_shape, if_neg h1, if_neg h2, if_neg h3, hw1, hw2, hw3]
    cases center with
    | false => simp
    | true =>
      dsimp only
      rw [if_pos rfl, hw4, hw5, if_pos rfl]
  refine ⟨hmain, fun hcen hodd => ?_⟩
  rw [hmain, hcen, if_pos rfl, two_mul_tdiv_of_odd nFft hn hodd]

/-- C7 witness: `n_fft = 5`, `hop = 2`, `n_frames = 3`, centered; all
intermediates far inside `i32` range. -/
theorem c7_get_duration_shape_witness :
    ((0 : ℤ) < 1 ∧ (0 : ℤ) < 5 ∧ (0 : ℤ) < 2 ∧ (5 : ℤ) < 2 ^ 31 ∧
      (-(2 ^ 31) ≤ (3 : ℤ) - 1 ∧ (3 : ℤ) - 1 < 2 ^ 31) ∧
      (-(2 ^ 31) ≤ (2 : ℤ) * (3 - 1) ∧ (2 : ℤ) * (3 - 1) < 2 ^ 31) ∧
      (-(2 ^ 31) ≤ (5 : ℤ) + 2 * (3 - 1) ∧ (5 : ℤ) + 2 * (3 - 1) < 2 ^ 31) ∧
      (-(2 ^ 31) ≤ (5 : ℤ) + 2 * (3 - 1) - 2 * Int.tdiv 5 2 ∧
        (5 : ℤ) + 2 * (3 - 1) - 2 * Int.tdiv 5 2 < 2 ^ 31)) ∧
    (get_duration_shape 1 5 2 true 3 =
      .ok (((5 + 2 * (3 - 1) - (if true then 2 * Int.tdiv 5 2 else 0) : ℤ) : ℚ) /
        ((1 : ℤ) : ℚ))
    ∧ (true = true → (5 : ℤ) % 2 = 1 →
        get_duration_shape 1 5 2 true 3 =
          .ok (((5 + 2 * (3 - 1) - (5 - 1) : ℤ) : ℚ) / ((1 : ℤ) : ℚ)))) :=
  ⟨⟨by norm_num, by norm_num, by norm_num, by norm_num, ⟨by norm_num, by norm_num⟩,
      ⟨by norm_num, by norm_num⟩, ⟨by norm_num, by norm_num⟩,
      ⟨by decide, by decide⟩⟩,
    c7_get_duration_shape 1 5 2 3 true (by norm_num) (by norm_num) (by norm_num)
      (by norm_num) ⟨by norm_num, by norm_num⟩ ⟨by norm_num, by norm_num⟩
      ⟨by norm_num, by norm_num⟩ ⟨by decide, by decide⟩⟩

/-- C8: the source-priority dispatch of `get_duration`: the file branch is
taken iff `fname` is given; the shape branch iff `s` is given and `fname` is
not; the buffer branch iff only `r_arr` is given; and supplying none of the
three is the validation failure. -/
theorem c8_get_duration_priority (rNull : Bool) (fname : Option String) (sNull : Bool) :
    (get_duration_dispatch rNull fname sNull = some .file ↔ fname.isSome = true)
    ∧ (get_duration_dispatch rNull fname sNull = some .shape ↔ fname = none ∧ sNull = false)
    ∧ (get_duration_dispatch rNull fname sNull = some .buffer ↔
        fname = none ∧ sNull = true ∧ rNull = false)
    ∧ (get_duration_dispatch rNull fname sNull = none ↔
        fname = none ∧ sNull = true ∧ rNull = true) := by
  rcases fname with _ | f <;> cases sNull <;> cases rNull <;>
    simp [get_duration_dispatch]

/-- C4: when the resolved duration is ≤ 0 or the offset frame count reaches the
total frame count, `load` fails with the corresponding validation panic before
consuming any packet (the error does not depend on the stream), and never
returns a matrix. -/
theorem c4_invalid_window (channels nFrames sr : Nat) (mono : Bool) (offset : ℚ)
    (duration : Option ℚ) (trackId : Nat)
    (h : effective_duration nFrames sr offset duration ≤ 0 ∨
      nFrames ≤ offset_frames sr offset) :
    ∃ e, (∀ events, load channels nFrames sr mono offset duration trackId events =
          Except.error e)
      ∧ (e = LoadError.durationNotPositive ∨ e = LoadError.offsetTooLarge) := by
  by_cases h1 : effective_duration nFrames sr offset duration ≤ 0
  · exact ⟨.durationNotPositive, fun events => by simp only [load]; rw [if_pos h1], Or.inl rfl⟩
  · have h2 : nFrames ≤ offset_frames sr offset := h.resolve_left h1
    exact ⟨.offsetTooLarge, fun events => by
      simp only [load]; rw [if_neg h1, if_pos h2], Or.inr rfl⟩

/-- C4 witness: offset equal to the total duration (10 s of a 10-frame, 1 Hz
track) fails regardless of the stream. -/
theorem c4_invalid_window_witness :
    (effective_duration 10 1 10 none ≤ 0 ∨ (10 : ℕ) ≤ offset_frames 1 10) ∧
    ∃ e, (∀ events, load 2 10 1 false 10 none 0 events = Except.error e)
      ∧ (e = LoadError.durationNotPositive ∨ e = LoadError.offsetTooLarge) :=
  ⟨Or.inl (by norm_num [effective_duration]),
    c4_invalid_window 2 10 1 false 10 none 0 (Or.inl (by norm_num [effective_duration]))⟩

/-- C3 counterexample: a 10-frame track at 2 Hz with offset 0.25 s is within
bounds and clamps the duration to the remainder, but the clamped frame count is
9 while `total_frames - offset_frames = 10 - 0 = 10`: the claimed equality
fails whenever `offset * sr` is not an integer. -/
theorem c3_clamp_counterexample :
    effective_duration 10 2 (1/4) none = (10 : ℚ) / 2 - 1/4
    ∧ offset_frames 2 (1/4) = 0
    ∧ offset_frames 2 (1/4) < 10
    ∧ length_frames 10 2 (1/4) none = 9
    ∧ 10 - offset_frames 2 (1/4) ≠ length_frames 10 2 (1/4) none := by
  have h1 : effective_duration 10 2 (1/4) none = (10 : ℚ) / 2 - 1/4 := by
    norm_num [effective_duration]
  have h2 : offset_frames 2 (1/4) = 0 := by
    rw [offset_frames]; exact f64toU32_eval _ 0 (by norm_num) (by norm_num) (by norm_num)
  have h3 : length_frames 10 2 (1/4) none = 9 := by
    rw [length_frames, h1]
    exact f64toU32_eval _ 9 (by norm_num) (by norm_num) (by norm_num)
  exact ⟨h1, h2, by omega, h3, by omega⟩

/-- C3 (amended): the effective duration is
`min(requested_duration_or_default, total_track_seconds - offset_seconds)` and a
duration larger than the remainder silently clamps; the clamped frame count
equals `total_frames - ceil(offset*sr)`, which equals
`total_frames - offset_frames` exactly when `offset*sr` is an integer (as in
the 9.5 s / 44100 Hz scenario), and a successful `load` allocates exactly that
many columns. -/
theorem c3_clamp_amended (nFrames sr : Nat) (offset : ℚ) (duration : Option ℚ)
    (hsr : 1 ≤ sr) (hoff : 0 ≤ offset)
    (hle : offset * (sr : ℚ) ≤ (nFrames : ℚ))
    (hcap : nFrames < 2 ^ 32)
    (hdur : duration = none ∨
      ∃ q, duration = some q ∧ (nFrames : ℚ) / (sr : ℚ) - offset ≤ q) :
    effective_duration nFrames sr offset duration = (nFrames : ℚ) / (sr : ℚ) - offset
    ∧ length_frames nFrames sr offset duration = nFrames - Int.toNat ⌈offset * (sr : ℚ)⌉
    ∧ ((∃ k : ℤ, offset * (sr : ℚ) = (k : ℚ)) →
        length_frames nFrames sr offset duration = nFrames - offset_frames sr offset)
    ∧ ∀ channels trackId events m,
        load channels nFrames sr false offset duration trackId events = .ok m →
        m.rows = channels ∧ m.cols = nFrames - Int.toNat ⌈offset * (sr : ℚ)⌉ := by
  have hsrq : (0 : ℚ) < (sr : ℚ) := by exact_mod_cast Nat.lt_of_lt_of_le Nat.zero_lt_one hsr
  have heff : effective_duration nFrames sr offset duration =
      (nFrames : ℚ) / (sr : ℚ) - offset := by
    rcases hdur with rfl | ⟨q, rfl, hq⟩
    · simp [effective_duration]
    · simp [effective_duration, min_eq_right hq]
  have hkey : ((nFrames : ℚ) / (sr : ℚ) - offset) * (sr : ℚ) =
      (nFrames : ℚ) - offset * (sr : ℚ) := by
    rw [sub_mul, div_mul_cancel₀ _ (ne_of_gt hsrq)]
  have hceil0 : 0 ≤ ⌈offset * (sr : ℚ)⌉ := Int.ceil_nonneg (by positivity)
  have hceilN : ⌈offset * (sr : ℚ)⌉ ≤ (nFrames : ℤ) := Int.ceil_le.mpr (by exact_mod_cast hle)
  have hfloor : ⌊(nFrames : ℚ) - offset * (sr : ℚ)⌋ =
      (nFrames : ℤ) - ⌈offset * (sr : ℚ)⌉ := floor_natCast_sub _ _
  have hlen : length_frames nFrames sr offset duration =
      nFrames - Int.toNat ⌈offset * (sr : ℚ)⌉ := by
    rw [length_frames, heff, hkey,
      f64toU32_of_floor _ ((nFrames : ℤ) - ⌈offset * (sr : ℚ)⌉)
        (sub_nonneg.mpr hle) hfloor (by omega)]
    omega
  refine ⟨heff, hlen, fun hint => ?_, fun channels trackId events m hm => ?_⟩
  · obtain ⟨k, hk⟩ := hint
    have hk0 : (0 : ℚ) ≤ (k : ℚ) := hk ▸ by positivity
    have hkz : (0 : ℤ) ≤ k := by exact_mod_cast hk0
    have hfk : ⌊offset * (sr : ℚ)⌋ = k := by rw [hk]; exact Int.floor_intCast k
    have hck : ⌈offset * (sr : ℚ)⌉ = k := by rw [hk]; exact Int.ceil_intCast k
    have hkN : k ≤ (nFrames : ℤ) := hck ▸ hceilN
    have hoffF : offset_frames sr offset = Int.toNat k := by
      rw [offset_frames]
      exact f64toU32_of_floor _ k (by positivity) hfk (by omega)
    rw [hlen, hoffF, hck]
  · simp only [load] at hm
    by_cases h1 : effective_duration nFrames sr offset duration ≤ 0
    · rw [if_pos h1] at hm; cases hm
    · rw [if_neg h1] at hm
      by_cases h2 : nFrames ≤ offset_frames sr offset
      · rw [if_pos h2] at hm; cases hm
      · rw [if_neg h2] at hm
        cases hloop : runLoop channels trackId events
            ⟨offset_frames sr offset, length_frames nFrames sr offset duration, 0,
              mkZeros channels (length_frames nFrames sr offset duration)⟩ with
        | error e => rw [hloop] at hm; cases hm
        | ok arr2 =>
          rw [hloop] at hm
          simp only [Bool.false_eq_true, if_false] at hm
          injection hm with hm
          subst hm
          obtain ⟨hrows, hcols, -⟩ := runLoop_pres _ _ _ _ _ hloop
          simp only [mkZeros] at hrows hcols
          exact ⟨hrows, hcols.trans hlen⟩

/-- C3 witness: the spec's concrete scenario — 441000 frames at 44100 Hz,
offset 9.5 s, no requested duration — clamps to the remaining 0.5 s, i.e.
22050 frames, and `offset*sr = 418950` is an integer here. -/
theorem c3_clamp_amended_witness :
    ((1 : ℕ) ≤ 44100 ∧ (0 : ℚ) ≤ 19/2 ∧
      (19/2 : ℚ) * ((44100 : ℕ) : ℚ) ≤ ((441000 : ℕ) : ℚ) ∧
      (441000 : ℕ) < 2 ^ 32) ∧
    (441000 : ℕ) - Int.toNat ⌈(19/2 : ℚ) * ((44100 : ℕ) : ℚ)⌉ = 22050 ∧
    (effective_duration 441000 44100 (19/2) none =
        ((441000 : ℕ) : ℚ) / ((44100 : ℕ) : ℚ) - 19/2
    ∧ length_frames 441000 44100 (19/2) none =
        441000 - Int.toNat ⌈(19/2 : ℚ) * ((44100 : ℕ) : ℚ)⌉
    ∧ ((∃ k : ℤ, (19/2 : ℚ) * ((44100 : ℕ) : ℚ) = (k : ℚ)) →
        length_frames 441000 44100 (19/2) none = 441000 - offset_frames 44100 (19/2))
    ∧ ∀ channels trackId events m,
        load channels 441000 44100 false (19/2) none trackId events = .ok m →
        m.rows = channels ∧
          m.cols = 441000 - Int.toNat ⌈(19/2 : ℚ) * ((44100 : ℕ) : ℚ)⌉) := by
  have hceil : ⌈(19/2 : ℚ) * ((44100 : ℕ) : ℚ)⌉ = 418950 := by
    rw [show (19/2 : ℚ) * ((44100 : ℕ) : ℚ) = ((418950 : ℤ) : ℚ) by norm_num]
    exact Int.ceil_intCast _
  refine ⟨⟨by norm_num, by norm_num, by norm_num, by norm_num⟩, by rw [hceil]; rfl, ?_⟩
  exact c3_clamp_amended 441000 44100 (19/2) none (by norm_num) (by norm_num)
    (by norm_num) (by norm_num) (Or.inl rfl)

/-- C9 counterexample: with `offset*sr = 2^32` the offset cast loses precision
(saturating to `u32::MAX = 2^32 - 1` instead of the true floor `2^32`), yet
`load` succeeds instead of failing with an overflow error. -/
theorem c9_overflow_counterexample :
    exceptIsOk (load 1 (2 ^ 33) 1 false (2 ^ 32) none 0 []) = true
    ∧ (offset_frames 1 (2 ^ 32) : ℤ) ≠ ⌊(2 ^ 32 : ℚ) * ((1 : ℕ) : ℚ)⌋ := by
  have h1 : offset_frames 1 (2 ^ 32) = 2 ^ 32 - 1 := by
    rw [offset_frames]
    exact f64toU32_sat _ (by norm_num)
  have heff : ¬ effective_duration (2 ^ 33) 1 (2 ^ 32) none ≤ 0 := by
    norm_num [effective_duration]
  have hfl : ⌊(2 ^ 32 : ℚ) * ((1 : ℕ) : ℚ)⌋ = 2 ^ 32 := by
    rw [show (2 ^ 32 : ℚ) * ((1 : ℕ) : ℚ) = ((2 ^ 32 : ℤ) : ℚ) by norm_num]
    exact Int.floor_intCast _
  constructor
  · have hload : load 1 (2 ^ 33) 1 false (2 ^ 32) none 0 [] =
        .ok (mkZeros 1 (length_frames (2 ^ 33) 1 (2 ^ 32) none)) := by
      simp only [load]
      rw [if_neg heff, if_neg (by rw [h1]; norm_num), runLoop_nil]
      rfl
    rw [hload]
    rfl
  · rw [h1, hfl]
    norm_num

/-- C9 (amended): only the per-packet sample-count conversion is a checked
(`try_from`) cast; the seconds-derived offset and duration frame counts use a
saturating truncating cast, so an `offset*sr` of `2^32` or more silently
becomes `u32::MAX` and `load` proceeds (here: succeeds on an empty stream)
instead of failing with an overflow error. -/
theorem c9_overflow_amended (channels nFrames sr trackId : Nat) (offset : ℚ)
    (hoff2 : (2 : ℚ) ^ 32 ≤ offset * (sr : ℚ))
    (hnf : 2 ^ 32 - 1 < nFrames)
    (heff : 0 < effective_duration nFrames sr offset none) :
    offset_frames sr offset = 2 ^ 32 - 1
    ∧ (2 ^ 32 : ℤ) ≤ ⌊offset * (sr : ℚ)⌋
    ∧ exceptIsOk (load channels nFrames sr false offset none trackId []) = true := by
  have h1 : offset_frames sr offset = 2 ^ 32 - 1 := by
    rw [offset_frames]; exact f64toU32_sat _ hoff2
  have h2 : (2 ^ 32 : ℤ) ≤ ⌊offset * (sr : ℚ)⌋ := by
    rw [Int.le_floor]; exact_mod_cast hoff2
  refine ⟨h1, h2, ?_⟩
  have hload : load channels nFrames sr false offset none trackId [] =
      .ok (mkZeros channels (length_frames nFrames sr offset none)) := by
    simp only [load]
    rw [if_neg (not_le.mpr heff), if_neg (by rw [h1]; omega), runLoop_nil]
    rfl
  rw [hload]
  rfl

/-- C9 amended witness: the saturation scenario at `offset = 2^32`, `sr = 1`. -/
theorem c9_overflow_amended_witness :
    ((2 : ℚ) ^ 32 ≤ (2 ^ 32 : ℚ) * ((1 : ℕ) : ℚ) ∧ 2 ^ 32 - 1 < (2 ^ 33 : ℕ) ∧
      0 < effective_duration (2 ^ 33) 1 (2 ^ 32) none) ∧
    (offset_frames 1 (2 ^ 32) = 2 ^ 32 - 1
    ∧ (2 ^ 32 : ℤ) ≤ ⌊(2 ^ 32 : ℚ) * ((1 : ℕ) : ℚ)⌋
    ∧ exceptIsOk (load 1 (2 ^ 33) 1 false (2 ^ 32) none 0 []) = true) :=
  ⟨⟨by norm_num, by norm_num, by norm_num [effective_duration]⟩,
    c9_overflow_amended 1 (2 ^ 33) 1 0 (2 ^ 32) (by norm_num) (by norm_num)
      (by norm_num [effective_duration])⟩

/-- C5 counterexample: a decoder error that is not a `DecodeError` (modelled by
`DecodeResult.otherErr`) on an accepted packet does not propagate: `load`
silently stops the loop and returns successfully. -/
theorem c5_error_propagation_counterexample :
    exceptIsOk (load 1 4 1 false 0 none 0 [.packet 0 .otherErr]) = true := by
  have h1 : ¬ effective_duration 4 1 0 none ≤ 0 := by norm_num [effective_duration]
  have h2 : offset_frames 1 0 = 0 := by
    rw [offset_frames]; exact f64toU32_eval _ 0 (by norm_num) (by norm_num) (by norm_num)
  have hload : load 1 4 1 false 0 none 0 [.packet 0 .otherErr] =
      .ok (mkZeros 1 (length_frames 4 1 0 none)) := by
    simp only [load]
    rw [if_neg h1, if_neg (by rw [h2]; omega), runLoop_otherErr]
    rfl
  rw [hload]
  rfl

/-- C2 counterexample: the selected track holds only 1 of the 4 requested
frames, so the stream hits end-of-file with `remaining_length > 0` — yet `load`
succeeds, returning the full-size (1, 4) matrix with the missing columns left
at zero, instead of failing with a ShortStream error. -/
theorem c2_short_stream_counterexample :
    exceptIsOk (load 1 4 1 false 0 none 0 [.packet 0 (.ok [1/2]), .ioEof]) = true
    ∧ resultShape (load 1 4 1 false 0 none 0 [.packet 0 (.ok [1/2]), .ioEof]) = some (1, 4)
    ∧ resultCell (load 1 4 1 false 0 none 0 [.packet 0 (.ok [1/2]), .ioEof]) 0 0 =
        some (1/2)
    ∧ resultCell (load 1 4 1 false 0 none 0 [.packet 0 (.ok [1/2]), .ioEof]) 0 3 = some 0 := by
  have h1 : effective_duration 4 1 0 none = 4 := by norm_num [effective_duration]
  have h2 : offset_frames 1 0 = 0 := by
    rw [offset_frames]; exact f64toU32_eval _ 0 (by norm_num) (by norm_num) (by norm_num)
  have h3 : length_frames 4 1 0 none = 4 := by
    rw [length_frames, h1]; exact f64toU32_eval _ 4 (by norm_num) (by norm_num) (by norm_num)
  refine ⟨?_, ?_, ?_, ?_⟩ <;>
    norm_num [load, h1, h2, h3, runLoop, consumeRun, setCell, mkZeros, exceptIsOk,
      resultShape, resultCell]

/-! ### List and arithmetic helpers for the collector proofs -/

theorem getD_append_left {l1 l2 : List ℚ} {k : ℕ} {d : ℚ} (h : k < l1.length) :
    (l1 ++ l2).getD k d = l1.getD k d := by
  simp [List.getD_eq_getElem?_getD, List.getElem?_append_left h]

theorem getD_append_add {l1 l2 : List ℚ} {k : ℕ} {d : ℚ} :
    (l1 ++ l2).getD (l1.length + k) d = l2.getD k d := by
  simp [List.getD_eq_getElem?_getD, List.getElem?_append_right (Nat.le_add_right _ _)]

theorem getD_drop_add {l : List ℚ} {m k : ℕ} {d : ℚ} :
    (l.drop m).getD k d = l.getD (m + k) d := by
  simp [List.getD_eq_getElem?_getD, List.getElem?_drop]

theorem getD_take_lt {l : List ℚ} {m k : ℕ} {d : ℚ} (h : k < m) :
    (l.take m).getD k d = l.getD k d := by
  simp [List.getD_eq_getElem?_getD, List.getElem?_take, h]

theorem add_div_of_dvd_left {c a b : ℕ} (hc : 0 < c) (h : c ∣ a) :
    (a + b) / c = a / c + b / c := by
  obtain ⟨k, rfl⟩ := h
  rw [Nat.mul_add_div hc]
  simp [Nat.mul_div_cancel_left _ hc]

theorem succ_mod_of_lt {n c : ℕ} (h : n % c + 1 < c) : (n + 1) % c = n % c + 1 := by
  rw [Nat.add_mod, Nat.mod_eq_of_lt (show 1 < c by omega)]
  exact Nat.mod_eq_of_lt h

/-! ### Decomposition of the per-track sample stream -/

theorem trackSamples_nil {trackId : Nat} : trackSamples trackId [] = [] := rfl

theorem trackSamples_cons_ok {trackId : Nat} {s : List ℚ} {rest : List PacketEvent} :
    trackSamples trackId (.packet trackId (.ok s) :: rest) =
      s ++ trackSamples trackId rest := by
  simp [trackSamples, List.filterMap_cons]

theorem trackSamples_cons_skip {trackId tid : Nat} {dec : DecodeResult}
    {rest : List PacketEvent} (h : tid ≠ trackId) :
    trackSamples trackId (.packet tid dec :: rest) = trackSamples trackId rest := by
  cases dec <;> simp [trackSamples, List.filterMap_cons, h]

/-! ### Writing one frame down a column -/

theorem writeFrameAux_nil {arr : Mat} {idx c0 : Nat} :
    writeFrameAux arr idx [] c0 = some arr := rfl

theorem writeFrameAux_cons {arr : Mat} {idx c0 : Nat} {x : ℚ} {rest : List ℚ} :
    writeFrameAux arr idx (x :: rest) c0 =
      match setCell arr c0 idx x with
      | none => none
      | some arr2 => writeFrameAux arr2 idx rest (c0 + 1) := rfl

theorem writeFrameAux_spec (s : List ℚ) (c0 idx : Nat) (arr : Mat)
    (hrows : c0 + s.length ≤ arr.rows) (hidx : idx < arr.cols) :
    ∃ arr1, writeFrameAux arr idx s c0 = some arr1 ∧ arr1.rows = arr.rows ∧
      arr1.cols = arr.cols ∧
      ∀ c j, arr1.data c j =
        if j = idx ∧ c0 ≤ c ∧ c < c0 + s.length then s.getD (c - c0) 0
        else arr.data c j := by
  induction s generalizing c0 arr with
  | nil =>
    refine ⟨arr, writeFrameAux_nil, rfl, rfl, fun c j => ?_⟩
    rw [if_neg]
    rintro ⟨-, h1, h2⟩
    simp only [List.length_nil] at h2
    omega
  | cons x rest ih =>
    have hc0 : c0 < arr.rows := by
      simp only [List.length_cons] at hrows
      omega
    rw [writeFrameAux_cons, setCell_some_of_lt arr c0 idx x hc0 hidx]
    obtain ⟨arr1, heq, hr, hc, hd⟩ := ih (c0 + 1)
      ⟨arr.rows, arr.cols, fun c j => if c = c0 ∧ j = idx then x else arr.data c j⟩
      (by show c0 + 1 + rest.length ≤ arr.rows
          simp only [List.length_cons] at hrows
          omega)
      (by show idx < arr.cols; exact hidx)
    refine ⟨arr1, heq, hr, hc, fun c j => ?_⟩
    rw [hd c j]
    show (if j = idx ∧ c0 + 1 ≤ c ∧ c < c0 + 1 + rest.length then rest.getD (c - (c0 + 1)) 0
          else if c = c0 ∧ j = idx then x else arr.data c j) =
        if j = idx ∧ c0 ≤ c ∧ c < c0 + (x :: rest).length then (x :: rest).getD (c - c0) 0
        else arr.data c j
    simp only [List.length_cons]
    split_ifs with hA hB hB
    · have ht : c - c0 = (c - (c0 + 1)) + 1 := by omega
      rw [ht, List.getD_cons_succ]
    · omega
    · have ht : c - c0 = 0 := by omega
      rw [ht, List.getD_cons_zero]
    · omega
    · omega
    · rfl

/-- One whole frame of the sample loop: starting `s.length` positions before a
frame boundary, the loop writes `s` down column `idx`, then either breaks (when
this was the last wanted frame) or continues with the next frame. -/
theorem consumeRun_chunk (channels : Nat) (s rest : List ℚ) (n idx dur : Nat) (arr : Mat)
    (hch : 1 ≤ channels) (hs : s ≠ [])
    (hn : n % channels + s.length = channels) (hdur : 1 ≤ dur) :
    consumeRun channels (s ++ rest) n idx dur arr =
      match writeFrameAux arr idx s (n % channels) with
      | none => .error .indexOutOfBounds
      | some arr1 =>
        if dur = 1 then .ok (idx + 1, 0, arr1, true)
        else consumeRun channels rest (n + s.length) (idx + 1) (dur - 1) arr1 := by
  induction s generalizing n arr with
  | nil => exact absurd rfl hs
  | cons x s2 ih =>
    rw [List.cons_append, consumeRun_cons, writeFrameAux_cons]
    cases hset : setCell arr (n % channels) idx x with
    | none => rfl
    | some a2 =>
      show (if (if n % channels = channels - 1 then dur - 1 else dur) = 0
            then Except.ok ((if n % channels = channels - 1 then idx + 1 else idx),
                  (if n % channels = channels - 1 then dur - 1 else dur), a2, true)
            else consumeRun channels (s2 ++ rest) (n + 1)
                  (if n % channels = channels - 1 then idx + 1 else idx)
                  (if n % channels = channels - 1 then dur - 1 else dur) a2) =
          match writeFrameAux a2 idx s2 (n % channels + 1) with
          | none => .error .indexOutOfBounds
          | some arr1 =>
            if dur = 1 then .ok (idx + 1, 0, arr1, true)
            else consumeRun channels rest (n + (x :: s2).length) (idx + 1) (dur - 1) arr1
      by_cases hs2 : s2 = []
      · subst hs2
        have hm : n % channels = channels - 1 := by
          simp only [List.length_cons, List.length_nil] at hn
          omega
        simp only [if_pos hm, writeFrameAux_nil, List.length_cons, List.length_nil]
        by_cases hd1 : dur = 1
        · rw [if_pos (by omega : dur - 1 = 0), if_pos hd1, hd1]
        · rw [if_neg (by omega : ¬ dur - 1 = 0), if_neg hd1, List.nil_append]
      · have hlt : n % channels + 1 < channels := by
          have h5 : 1 ≤ s2.length := List.length_pos.mpr hs2
          simp only [List.length_cons] at hn
          omega
        have hm : ¬ (n % channels = channels - 1) := by omega
        simp only [if_neg hm]
        rw [if_neg (by omega : ¬ dur = 0)]
        have hn2 : (n + 1) % channels = n % channels + 1 := succ_mod_of_lt hlt
        rw [ih (n + 1) a2 hs2 (by rw [hn2]; simp only [List.length_cons] at hn; omega) ]
        rw [hn2]
        have hlen : n + 1 + s2.length = n + (x :: s2).length := by
          simp only [List.length_cons]
          omega
        rw [hlen]

/-- Full characterization of the sample loop on a run of `g` whole frames:
it writes `min dur g` frames into columns `idx, idx+1, ...`, breaking out
exactly when the run covers the remaining wanted frames. -/
theorem consumeRun_spec (channels : Nat) (g : Nat) (s : List ℚ) (n idx dur : Nat) (arr : Mat)
    (hch : 1 ≤ channels) (hlen : s.length = g * channels) (hn : channels ∣ n)
    (hrows : arr.rows = channels) (hcols : idx + dur ≤ arr.cols) (hdur : 1 ≤ dur) :
    ∃ arr1, consumeRun channels s n idx dur arr =
        .ok (idx + min dur g, dur - min dur g, arr1, decide (dur ≤ g))
      ∧ arr1.rows = arr.rows ∧ arr1.cols = arr.cols
      ∧ ∀ c j, arr1.data c j =
          if c < channels ∧ idx ≤ j ∧ j < idx + min dur g
          then s.getD ((j - idx) * channels + c) 0
          else arr.data c j := by
  induction g generalizing s n idx dur arr with
  | zero =>
    have hs : s = [] := List.eq_nil_of_length_eq_zero (by omega)
    subst hs
    refine ⟨arr, ?_, rfl, rfl, fun c j => ?_⟩
    · rw [consumeRun_nil]
      have hmin : min dur 0 = 0 := by omega
      have hdec : decide (dur ≤ 0) = false := decide_eq_false (by omega)
      rw [hmin, hdec, Nat.add_zero, Nat.sub_zero]
    · rw [if_neg]
      rintro ⟨-, h1, h2⟩
      omega
  | succ g2 ih =>
    rw [Nat.succ_mul] at hlen
    have hsplit : s.take channels ++ s.drop channels = s := List.take_append_drop channels s
    have hlen1 : (s.take channels).length = channels := by
      rw [List.length_take]
      omega
    have hlen2 : (s.drop channels).length = g2 * channels := by
      rw [List.length_drop, hlen]
      omega
    have hne : s.take channels ≠ [] := by
      intro hc
      rw [hc] at hlen1
      simp only [List.length_nil] at hlen1
      omega
    have hmod : n % channels = 0 := (Nat.mod_eq_zero_of_dvd hn)
    have hchunk := consumeRun_chunk channels (s.take channels) (s.drop channels)
      n idx dur arr hch hne (by rw [hmod, hlen1]; omega) hdur
    rw [hsplit] at hchunk
    rw [hchunk, hmod]
    obtain ⟨arrF, hF, hFr, hFc, hFd⟩ := writeFrameAux_spec (s.take channels) 0 idx arr
      (by rw [hlen1, hrows]; omega) (by omega)
    rw [hF]
    simp only
    simp only [hlen1, Nat.zero_add, Nat.sub_zero] at hFd
    by_cases hd1 : dur = 1
    · subst hd1
      refine ⟨arrF, ?_, hFr, hFc, fun c j => ?_⟩
      · have hmin : min 1 (g2 + 1) = 1 := by omega
        have hdec : decide (1 ≤ g2 + 1) = true := decide_eq_true (by omega)
        rw [if_pos rfl, hmin, hdec]
      · rw [hFd c j]
        have hmin : min 1 (g2 + 1) = 1 := by omega
        rw [hmin]
        by_cases hA : j = idx ∧ 0 ≤ c ∧ c < channels
        · obtain ⟨hj, -, hcl⟩ := hA
          rw [if_pos ⟨hj, by omega, hcl⟩, if_pos (by omega : c < channels ∧ idx ≤ j ∧ j < idx + 1)]
          rw [getD_take_lt hcl]
          have he : (j - idx) * channels + c = c := by
            rw [hj, Nat.sub_self, Nat.zero_mul, Nat.zero_add]
          rw [he]
        · rw [if_neg hA, if_neg (by omega : ¬ (c < channels ∧ idx ≤ j ∧ j < idx + 1))]
    · rw [if_neg hd1, hlen1]
      obtain ⟨arr1, hrec, hr1, hc1, hdat1⟩ := ih (s.drop channels) (n + channels)
        (idx + 1) (dur - 1) arrF hlen2 (Dvd.dvd.add hn (dvd_refl channels))
        (hFr.trans hrows) (by rw [hFc]; omega) (by omega)
      rw [hrec]
      refine ⟨arr1, ?_, hr1.trans hFr, hc1.trans hFc, fun c j => ?_⟩
      · have e1 : idx + 1 + min (dur - 1) g2 = idx + min dur (g2 + 1) := by omega
        have e2 : dur - 1 - min (dur - 1) g2 = dur - min dur (g2 + 1) := by omega
        have e3 : decide (dur - 1 ≤ g2) = decide (dur ≤ g2 + 1) := by
          by_cases h : dur ≤ g2 + 1
          · rw [decide_eq_true (by omega : dur - 1 ≤ g2), decide_eq_true h]
          · rw [decide_eq_false (by omega : ¬ dur - 1 ≤ g2), decide_eq_false h]
        rw [e1, e2, e3]
      · rw [hdat1 c j, hFd c j]
        have e1 : idx + 1 + min (dur - 1) g2 = idx + min dur (g2 + 1) := by omega
        have hminpos : 1 ≤ min dur (g2 + 1) := by omega
        by_cases hA : c < channels ∧ idx + 1 ≤ j ∧ j < idx + 1 + min (dur - 1) g2
        · -- written by the recursive call: frame j - idx of s, j ≥ idx + 1
          rw [if_pos hA, if_pos (by omega : c < channels ∧ idx ≤ j ∧ j < idx + min dur (g2 + 1))]
          rw [getD_drop_add]
          have ht : j - idx = (j - (idx + 1)) + 1 := by omega
          have he : channels + ((j - (idx + 1)) * channels + c) =
              (j - idx) * channels + c := by
            rw [ht]
            ring
          rw [he]
        · rw [if_neg hA]
          by_cases hB : j = idx ∧ 0 ≤ c ∧ c < channels
          · -- written by this frame: j = idx
            obtain ⟨hj, -, hcl⟩ := hB
            rw [if_pos ⟨hj, by omega, hcl⟩,
              if_pos (by omega : c < channels ∧ idx ≤ j ∧ j < idx + min dur (g2 + 1))]
            rw [getD_take_lt hcl]
            have he : (j - idx) * channels + c = c := by
              rw [hj, Nat.sub_self, Nat.zero_mul, Nat.zero_add]
            rw [he]
          · rw [if_neg hB,
              if_neg (by omega : ¬ (c < channels ∧ idx ≤ j ∧ j < idx + min dur (g2 + 1)))]

/-- Traversal lemma: a run of good packet events whose selected track carries
fewer frames than `offset + remaining duration` is consumed entirely without
breaking; the loop reaches the tail `q` with the offset/duration/cursor
advanced by the consumed frames and the in-window frames written down. -/
theorem runLoop_traverse (channels trackId : Nat) (evs : List PacketEvent)
    (off dur idx : Nat) (arr : Mat)
    (hch : 1 ≤ channels)
    (hgood : ∀ e ∈ evs, goodEvent channels trackId e = true)
    (hrows : arr.rows = channels)
    (hcols : idx + dur ≤ arr.cols)
    (hdur : 1 ≤ dur)
    (hF : (trackSamples trackId evs).length / channels < off + dur) :
    ∃ arr1,
      (∀ q, runLoop channels trackId (evs ++ q) ⟨off, dur, idx, arr⟩ =
        runLoop channels trackId q
          ⟨off - (trackSamples trackId evs).length / channels,
            dur - ((trackSamples trackId evs).length / channels - off),
            idx + ((trackSamples trackId evs).length / channels - off), arr1⟩)
      ∧ arr1.rows = arr.rows ∧ arr1.cols = arr.cols
      ∧ ∀ c j, arr1.data c j =
          if c < channels ∧ idx ≤ j ∧
              j < idx + ((trackSamples trackId evs).length / channels - off)
          then (trackSamples trackId evs).getD ((off + (j - idx)) * channels + c) 0
          else arr.data c j := by
  induction evs generalizing off dur idx arr with
  | nil =>
    refine ⟨arr, fun q => ?_, rfl, rfl, fun c j => ?_⟩
    · simp only [trackSamples_nil, List.length_nil, Nat.zero_div, Nat.zero_sub,
        Nat.sub_zero, Nat.add_zero, List.nil_append]
    · rw [if_neg]
      rintro ⟨-, h1, h2⟩
      simp only [trackSamples_nil, List.length_nil, Nat.zero_div, Nat.zero_sub,
        Nat.add_zero] at h2
      omega
  | cons e rest ih =>
    have hge : goodEvent channels trackId e = true := hgood e (List.mem_cons_self _ _)
    have hgrest : ∀ e2 ∈ rest, goodEvent channels trackId e2 = true :=
      fun e2 he2 => hgood e2 (List.mem_cons_of_mem _ he2)
    cases e with
    | ioEof => simp [goodEvent] at hge
    | readErr => simp [goodEvent] at hge
    | packet tid dec =>
      rcases eq_or_ne tid trackId with rfl | ht
      · cases dec with
        | decodeErr msg => simp [goodEvent] at hge
        | otherErr => simp [goodEvent] at hge
        | ok s =>
          obtain ⟨hmod, hlen32⟩ : s.length % channels = 0 ∧ s.length < 2 ^ 32 := by
            simpa [goodEvent] using hge
          have hdvd : channels ∣ s.length := Nat.dvd_of_mod_eq_zero hmod
          have hsl : s.length / channels * channels = s.length := Nat.div_mul_cancel hdvd
          have hdivF : (trackSamples tid
                (PacketEvent.packet tid (DecodeResult.ok s) :: rest)).length / channels =
              s.length / channels + (trackSamples tid rest).length / channels := by
            rw [trackSamples_cons_ok, List.length_append, add_div_of_dvd_left (by omega) hdvd]
          rw [hdivF] at hF
          rw [hdivF, trackSamples_cons_ok]
          obtain ⟨f, hgen⟩ : ∃ f, s.length / channels = f := ⟨_, rfl⟩
          obtain ⟨fr, hgen2⟩ : ∃ fr, (trackSamples tid rest).length / channels = fr :=
            ⟨_, rfl⟩
          rw [hgen, hgen2] at hF ⊢
          rw [hgen] at hsl
          by_cases hskip : f ≤ off
          · -- the packet lies entirely inside the remaining offset: O(1) skip
            obtain ⟨arr1, hq, hr, hc, hd⟩ := ih (off - f) dur idx arr
              hgrest hrows hcols hdur (by rw [hgen2]; omega)
            rw [hgen2] at hq hd
            refine ⟨arr1, fun q => ?_, hr, hc, fun c j => ?_⟩
            · rw [List.cons_append, runLoop_packet]
              simp only
              rw [if_neg (by omega), if_neg (by omega), if_pos (by rw [hgen]; omega), hgen,
                hq q]
              rw [(by omega : off - f - fr = off - (f + fr)),
                (by omega : dur - (fr - (off - f)) = dur - (f + fr - off)),
                (by omega : idx + (fr - (off - f)) = idx + (f + fr - off))]
            · rw [hd c j]
              by_cases hR : c < channels ∧ idx ≤ j ∧ j < idx + (fr - (off - f))
              · rw [if_pos hR, if_pos (by omega : c < channels ∧ idx ≤ j ∧
                  j < idx + (f + fr - off))]
                have h9 : (off - f + (j - idx)) * channels + f * channels =
                    (off + (j - idx)) * channels := by
                  rw [← Nat.add_mul]
                  congr 1
                  omega
                have hidx2 : (off + (j - idx)) * channels + c =
                    s.length + ((off - f + (j - idx)) * channels + c) := by
                  omega
                rw [hidx2, getD_append_add]
              · rw [if_neg hR, if_neg (by omega : ¬ (c < channels ∧ idx ≤ j ∧
                  j < idx + (f + fr - off)))]
          · -- the packet straddles or follows the window start: trim and consume
            have hdrop_len : (s.drop (off * channels)).length = (f - off) * channels := by
              rw [List.length_drop, Nat.sub_mul, hsl]
            obtain ⟨arrC, hcr, hCr, hCc, hCd⟩ := consumeRun_spec channels
              (f - off) (s.drop (off * channels)) 0 idx dur arr
              hch hdrop_len (dvd_zero _) hrows hcols hdur
            have hglt : f - off < dur := by omega
            rw [Nat.min_eq_right (by omega : f - off ≤ dur)] at hcr
            rw [decide_eq_false (by omega : ¬ dur ≤ f - off)] at hcr
            rw [Nat.min_eq_right (by omega : f - off ≤ dur)] at hCd
            obtain ⟨arr1, hq, hr1, hc1, hd1⟩ := ih 0 (dur - (f - off))
              (idx + (f - off)) arrC hgrest (hCr.trans hrows)
              (by rw [hCc]; omega) (by omega) (by rw [hgen2]; omega)
            rw [hgen2] at hq hd1
            refine ⟨arr1, fun q => ?_, hr1.trans hCr, hc1.trans hCc, fun c j => ?_⟩
            · rw [List.cons_append, runLoop_packet]
              simp only
              rw [if_neg (by omega), if_neg (by omega), if_neg (by rw [hgen]; omega),
                hcr]
              simp only
              rw [hq q]
              rw [(by omega : 0 - fr = off - (f + fr)),
                (by omega : dur - (f - off) - (fr - 0) = dur - (f + fr - off)),
                (by omega : idx + (f - off) + (fr - 0) = idx + (f + fr - off))]
              rw [if_neg Bool.false_ne_true]
            · rw [hd1 c j]
              by_cases hZ2 : c < channels ∧ idx + (f - off) ≤ j ∧
                  j < idx + (f - off) + (fr - 0)
              · -- zone written from the following packets
                rw [if_pos hZ2, if_pos (by omega : c < channels ∧ idx ≤ j ∧
                    j < idx + (f + fr - off))]
                have h9 : (j - idx - (f - off)) * channels + f * channels =
                    (off + (j - idx)) * channels := by
                  rw [← Nat.add_mul]
                  congr 1
                  omega
                have hidx2 : (off + (j - idx)) * channels + c =
                    s.length + ((0 + (j - (idx + (f - off)))) * channels + c) := by
                  have he : 0 + (j - (idx + (f - off))) = j - idx - (f - off) := by omega
                  rw [he]
                  omega
                rw [hidx2, getD_append_add]
              · rw [if_neg hZ2, hCd c j]
                by_cases hZ1 : c < channels ∧ idx ≤ j ∧ j < idx + (f - off)
                · -- zone written from this packet's run
                  rw [if_pos hZ1, if_pos (by omega : c < channels ∧ idx ≤ j ∧
                      j < idx + (f + fr - off))]
                  rw [getD_drop_add]
                  have h9 : (off + (j - idx)) * channels =
                      off * channels + (j - idx) * channels :=
                    Nat.add_mul off (j - idx) channels
                  have hidx3 : off * channels + ((j - idx) * channels + c) =
                      (off + (j - idx)) * channels + c := by omega
                  rw [hidx3, getD_append_left]
                  have h11 : off + (j - idx) + 1 ≤ f := by omega
                  have h10 : (off + (j - idx) + 1) * channels ≤ f * channels :=
                    Nat.mul_le_mul_right channels h11
                  have h12 : (off + (j - idx) + 1) * channels =
                      (off + (j - idx)) * channels + channels := by
                    rw [Nat.add_mul]
                    omega
                  omega
                · rw [if_neg hZ1, if_neg (by omega : ¬ (c < channels ∧ idx ≤ j ∧
                    j < idx + (f + fr - off)))]
      · rw [trackSamples_cons_skip ht]
        obtain ⟨arr1, hq, hr, hc, hd⟩ := ih off dur idx arr hgrest hrows hcols hdur
          (by rw [trackSamples_cons_skip ht] at hF; exact hF)
        refine ⟨arr1, fun q => ?_, hr, hc, hd⟩
        rw [List.cons_append, runLoop_skip (by omega : tid ≠ trackId), hq q]

/-- Fill lemma: when the remaining good events carry at least
`offset + remaining duration` frames of the selected track, the loop terminates
successfully the instant the last wanted frame is written, and every window
cell holds the corresponding interleaved source sample. -/
theorem runLoop_fill (channels trackId : Nat) (evs : List PacketEvent)
    (off dur idx : Nat) (arr : Mat)
    (hch : 1 ≤ channels)
    (hgood : ∀ e ∈ evs, goodEvent channels trackId e = true)
    (hrows : arr.rows = channels)
    (hcols : idx + dur ≤ arr.cols)
    (hdur : 1 ≤ dur)
    (hF : off + dur ≤ (trackSamples trackId evs).length / channels) :
    ∃ arr1, runLoop channels trackId evs ⟨off, dur, idx, arr⟩ = .ok arr1
      ∧ arr1.rows = arr.rows ∧ arr1.cols = arr.cols
      ∧ ∀ c j, arr1.data c j =
          if c < channels ∧ idx ≤ j ∧ j < idx + dur
          then (trackSamples trackId evs).getD ((off + (j - idx)) * channels + c) 0
          else arr.data c j := by
  induction evs generalizing off dur idx arr with
  | nil =>
    simp only [trackSamples_nil, List.length_nil, Nat.zero_div] at hF
    omega
  | cons e rest ih =>
    have hge : goodEvent channels trackId e = true := hgood e (List.mem_cons_self _ _)
    have hgrest : ∀ e2 ∈ rest, goodEvent channels trackId e2 = true :=
      fun e2 he2 => hgood e2 (List.mem_cons_of_mem _ he2)
    cases e with
    | ioEof => simp [goodEvent] at hge
    | readErr => simp [goodEvent] at hge
    | packet tid dec =>
      rcases eq_or_ne tid trackId with rfl | ht
      · cases dec with
        | decodeErr msg => simp [goodEvent] at hge
        | otherErr => simp [goodEvent] at hge
        | ok s =>
          obtain ⟨hmod, hlen32⟩ : s.length % channels = 0 ∧ s.length < 2 ^ 32 := by
            simpa [goodEvent] using hge
          have hdvd : channels ∣ s.length := Nat.dvd_of_mod_eq_zero hmod
          have hsl : s.length / channels * channels = s.length := Nat.div_mul_cancel hdvd
          have hdivF : (trackSamples tid
                (PacketEvent.packet tid (DecodeResult.ok s) :: rest)).length / channels =
              s.length / channels + (trackSamples tid rest).length / channels := by
            rw [trackSamples_cons_ok, List.length_append, add_div_of_dvd_left (by omega) hdvd]
          rw [hdivF] at hF
          rw [trackSamples_cons_ok]
          obtain ⟨f, hgen⟩ : ∃ f, s.length / channels = f := ⟨_, rfl⟩
          obtain ⟨fr, hgen2⟩ : ∃ fr, (trackSamples tid rest).length / channels = fr :=
            ⟨_, rfl⟩
          rw [hgen, hgen2] at hF
          rw [hgen] at hsl
          by_cases hskip : f ≤ off
          · -- the packet lies entirely inside the remaining offset: O(1) skip
            obtain ⟨arr1, hq, hr, hc, hd⟩ := ih (off - f) dur idx arr
              hgrest hrows hcols hdur (by rw [hgen2]; omega)
            refine ⟨arr1, ?_, hr, hc, fun c j => ?_⟩
            · rw [runLoop_packet]
              simp only
              rw [if_neg (by omega), if_neg (by omega), if_pos (by rw [hgen]; omega), hgen,
                hq]
            · rw [hd c j]
              by_cases hR : c < channels ∧ idx ≤ j ∧ j < idx + dur
              · rw [if_pos hR, if_pos hR]
                have h9 : (off - f + (j - idx)) * channels + f * channels =
                    (off + (j - idx)) * channels := by
                  rw [← Nat.add_mul]
                  congr 1
                  omega
                have hidx2 : (off + (j - idx)) * channels + c =
                    s.length + ((off - f + (j - idx)) * channels + c) := by
                  omega
                rw [hidx2, getD_append_add]
              · rw [if_neg hR, if_neg hR]
          · -- the packet straddles or follows the window start: trim and consume
            have hdrop_len : (s.drop (off * channels)).length = (f - off) * channels := by
              rw [List.length_drop, Nat.sub_mul, hsl]
            obtain ⟨arrC, hcr, hCr, hCc, hCd⟩ := consumeRun_spec channels
              (f - off) (s.drop (off * channels)) 0 idx dur arr
              hch hdrop_len (dvd_zero _) hrows hcols hdur
            by_cases hfill : dur ≤ f - off
            · -- the window fills inside this packet: break 'outer
              rw [Nat.min_eq_left hfill] at hcr hCd
              rw [decide_eq_true hfill] at hcr
              refine ⟨arrC, ?_, hCr, hCc, fun c j => ?_⟩
              · rw [runLoop_packet]
                simp only
                rw [if_neg (by omega), if_neg (by omega), if_neg (by rw [hgen]; omega),
                  hcr]
                simp only
                rw [if_pos trivial]
              · rw [hCd c j]
                by_cases hR : c < channels ∧ idx ≤ j ∧ j < idx + dur
                · rw [if_pos hR, if_pos hR, getD_drop_add]
                  have h9 : (off + (j - idx)) * channels =
                      off * channels + (j - idx) * channels :=
                    Nat.add_mul off (j - idx) channels
                  have hidx3 : off * channels + ((j - idx) * channels + c) =
                      (off + (j - idx)) * channels + c := by omega
                  rw [hidx3, getD_append_left]
                  have h11 : off + (j - idx) + 1 ≤ f := by omega
                  have h10 : (off + (j - idx) + 1) * channels ≤ f * channels :=
                    Nat.mul_le_mul_right channels h11
                  have h12 : (off + (j - idx) + 1) * channels =
                      (off + (j - idx)) * channels + channels := by
                    rw [Nat.add_mul]
                    omega
                  omega
                · rw [if_neg hR, if_neg hR]
            · -- the packet is exhausted first: continue with the next packets
              rw [Nat.min_eq_right (by omega : f - off ≤ dur)] at hcr hCd
              rw [decide_eq_false hfill] at hcr
              obtain ⟨arr1, hq, hr1, hc1, hd1⟩ := ih 0 (dur - (f - off))
                (idx + (f - off)) arrC hgrest (hCr.trans hrows)
                (by rw [hCc]; omega) (by omega) (by rw [hgen2]; omega)
              refine ⟨arr1, ?_, hr1.trans hCr, hc1.trans hCc, fun c j => ?_⟩
              · rw [runLoop_packet]
                simp only
                rw [if_neg (by omega), if_neg (by omega), if_neg (by rw [hgen]; omega),
                  hcr]
                simp only
                rw [if_neg Bool.false_ne_true]
                exact hq
              · rw [hd1 c j]
                by_cases hZ2 : c < channels ∧ idx + (f - off) ≤ j ∧
                    j < idx + (f - off) + (dur - (f - off))
                · -- zone written from the following packets
                  rw [if_pos hZ2, if_pos (by omega : c < channels ∧ idx ≤ j ∧
                      j < idx + dur)]
                  have h9 : (j - idx - (f - off)) * channels + f * channels =
                      (off + (j - idx)) * channels := by
                    rw [← Nat.add_mul]
                    congr 1
                    omega
                  have hidx2 : (off + (j - idx)) * channels + c =
                      s.length + ((0 + (j - (idx + (f - off)))) * channels + c) := by
                    have he : 0 + (j - (idx + (f - off))) = j - idx - (f - off) := by omega
                    rw [he]
                    omega
                  rw [hidx2, getD_append_add]
                · rw [if_neg hZ2, hCd c j]
                  by_cases hZ1 : c < channels ∧ idx ≤ j ∧ j < idx + (f - off)
                  · -- zone written from this packet's run
                    rw [if_pos hZ1, if_pos (by omega : c < channels ∧ idx ≤ j ∧
                        j < idx + dur), getD_drop_add]
                    have h9 : (off + (j - idx)) * channels =
                        off * channels + (j - idx) * channels :=
                      Nat.add_mul off (j - idx) channels
                    have hidx3 : off * channels + ((j - idx) * channels + c) =
                        (off + (j - idx)) * channels + c := by omega
                    rw [hidx3, getD_append_left]
                    have h11 : off + (j - idx) + 1 ≤ f := by omega
                    have h10 : (off + (j - idx) + 1) * channels ≤ f * channels :=
                      Nat.mul_le_mul_right channels h11
                    have h12 : (off + (j - idx) + 1) * channels =
                        (off + (j - idx)) * channels + channels := by
                      rw [Nat.add_mul]
                      omega
                    omega
                  · rw [if_neg hZ1, if_neg (by omega : ¬ (c < channels ∧ idx ≤ j ∧
                      j < idx + dur))]
      · rw [trackSamples_cons_skip ht]
        obtain ⟨arr1, hq, hr, hc, hd⟩ := ih off dur idx arr hgrest hrows hcols hdur
          (by rw [trackSamples_cons_skip ht] at hF; exact hF)
        refine ⟨arr1, ?_, hr, hc, hd⟩
        rw [runLoop_skip (by omega : tid ≠ trackId), hq]

/-- C1: for every well-formed packet stream whose selected track carries at
least `offset_frames + length_frames` frames, `load` succeeds and fills the
output matrix so that cell `[c][j]` is the decoded interleaved sample for
channel `c` of source frame `offset_frames + j`: other tracks are skipped,
runs before the window are discarded whole, a straddling run is trimmed by the
remaining offset, channel order is preserved, and the collector stops the
instant the window is full. -/
theorem c1_load_fills_window (channels nFrames sr trackId : Nat) (offset : ℚ)
    (duration : Option ℚ) (events : List PacketEvent)
    (hch : 1 ≤ channels)
    (heff : 0 < effective_duration nFrames sr offset duration)
    (hoffF : offset_frames sr offset < nFrames)
    (hlenF : 1 ≤ length_frames nFrames sr offset duration)
    (hgood : ∀ e ∈ events, goodEvent channels trackId e = true)
    (hframes : offset_frames sr offset + length_frames nFrames sr offset duration ≤
      (trackSamples trackId events).length / channels) :
    ∃ m, load channels nFrames sr false offset duration trackId events = .ok m
      ∧ m.rows = channels ∧ m.cols = length_frames nFrames sr offset duration
      ∧ ∀ c j, c < channels → j < length_frames nFrames sr offset duration →
          m.data c j = (trackSamples trackId events).getD
            ((offset_frames sr offset + j) * channels + c) 0 := by
  obtain ⟨arr1, hrun, hr, hc, hd⟩ := runLoop_fill channels trackId events
    (offset_frames sr offset) (length_frames nFrames sr offset duration) 0
    (mkZeros channels (length_frames nFrames sr offset duration)) hch hgood rfl
    (by simp [mkZeros]) hlenF hframes
  refine ⟨arr1, ?_, hr, hc, fun c j hcc hjj => ?_⟩
  · simp only [load]
    rw [if_neg (not_le.mpr heff), if_neg (by omega : ¬ nFrames ≤ offset_frames sr offset),
      hrun]
    simp only
    rw [if_neg Bool.false_ne_true]
  · rw [hd c j, if_pos ⟨hcc, by omega, by omega⟩, Nat.sub_zero]

/-- C1 witness: a 3-frame mono track at 1 Hz, offset 1 s, loads the last
2 frames. -/
theorem c1_load_fills_window_witness :
    (1 ≤ 1 ∧ 0 < effective_duration 3 1 1 none ∧ offset_frames 1 1 < 3 ∧
      1 ≤ length_frames 3 1 1 none ∧
      (∀ e ∈ [PacketEvent.packet 0 (DecodeResult.ok [1/2, 3/2, 5/2])],
        goodEvent 1 0 e = true) ∧
      offset_frames 1 1 + length_frames 3 1 1 none ≤
        (trackSamples 0 [PacketEvent.packet 0 (DecodeResult.ok [1/2, 3/2, 5/2])]).length / 1) ∧
    ∃ m, load 1 3 1 false 1 none 0
        [PacketEvent.packet 0 (DecodeResult.ok [1/2, 3/2, 5/2])] = .ok m
      ∧ m.rows = 1 ∧ m.cols = length_frames 3 1 1 none
      ∧ ∀ c j, c < 1 → j < length_frames 3 1 1 none →
          m.data c j = (trackSamples 0
            [PacketEvent.packet 0 (DecodeResult.ok [1/2, 3/2, 5/2])]).getD
            ((offset_frames 1 1 + j) * 1 + c) 0 := by
  have heff : 0 < effective_duration 3 1 1 none := by norm_num [effective_duration]
  have hoF : offset_frames 1 1 = 1 := by
    rw [offset_frames]
    exact f64toU32_eval _ 1 (by norm_num) (by norm_num) (by norm_num)
  have hlF : length_frames 3 1 1 none = 2 := by
    have he : effective_duration 3 1 1 none = 2 := by norm_num [effective_duration]
    rw [length_frames, he]
    exact f64toU32_eval _ 2 (by norm_num) (by norm_num) (by norm_num)
  have hgood : ∀ e ∈ [PacketEvent.packet 0 (DecodeResult.ok [1/2, 3/2, 5/2])],
      goodEvent 1 0 e = true := by
    intro e he
    simp only [List.mem_singleton] at he
    subst he
    rfl
  have hframes : offset_frames 1 1 + length_frames 3 1 1 none ≤
      (trackSamples 0 [PacketEvent.packet 0 (DecodeResult.ok [1/2, 3/2, 5/2])]).length / 1 := by
    rw [hoF, hlF]
    rfl
  exact ⟨⟨le_refl 1, heff, by rw [hoF]; norm_num, by rw [hlF]; norm_num, hgood, hframes⟩,
    c1_load_fills_window 1 3 1 0 1 none
      [PacketEvent.packet 0 (DecodeResult.ok [1/2, 3/2, 5/2])]
      (le_refl 1) heff (by rw [hoF]; norm_num) (by rw [hlF]; norm_num) hgood hframes⟩

/-- C2 (amended): when the stream reaches end-of-file before the window is
filled, `load` does not fail: it breaks out of the packet loop and returns the
full-size pre-allocated matrix (exactly `length_frames` columns), with every
column at or beyond the received in-window frame count still zero. It thus
never returns a shorter matrix than requested, but a partial decode is a
zero-padded success, not a ShortStream error — no such error exists in the
code. -/
theorem c2_short_stream_amended (channels nFrames sr trackId : Nat) (offset : ℚ)
    (duration : Option ℚ) (events q : List PacketEvent)
    (hch : 1 ≤ channels)
    (heff : 0 < effective_duration nFrames sr offset duration)
    (hoffF : offset_frames sr offset < nFrames)
    (hlenF : 1 ≤ length_frames nFrames sr offset duration)
    (hgood : ∀ e ∈ events, goodEvent channels trackId e = true)
    (hshort : (trackSamples trackId events).length / channels <
      offset_frames sr offset + length_frames nFrames sr offset duration) :
    ∃ m, load channels nFrames sr false offset duration trackId
        (events ++ PacketEvent.ioEof :: q) = .ok m
      ∧ m.rows = channels ∧ m.cols = length_frames nFrames sr offset duration
      ∧ ∀ c j,
          (trackSamples trackId events).length / channels - offset_frames sr offset ≤ j →
          m.data c j = 0 := by
  obtain ⟨arr1, hq, hr, hc, hd⟩ := runLoop_traverse channels trackId events
    (offset_frames sr offset) (length_frames nFrames sr offset duration) 0
    (mkZeros channels (length_frames nFrames sr offset duration)) hch hgood rfl
    (by simp [mkZeros]) hlenF hshort
  refine ⟨arr1, ?_, hr, hc, fun c j hj => ?_⟩
  · simp only [load]
    rw [if_neg (not_le.mpr heff), if_neg (by omega : ¬ nFrames ≤ offset_frames sr offset),
      hq (PacketEvent.ioEof :: q), runLoop_eof]
    simp only
    rw [if_neg Bool.false_ne_true]
  · rw [hd c j, if_neg]
    · rfl
    · rintro ⟨-, -, h2⟩
      omega

/-- C2 amended witness: 1 of 4 requested frames arrive, then EOF; the result is
the zero-padded full-size matrix. -/
theorem c2_short_stream_amended_witness :
    (1 ≤ 1 ∧ 0 < effective_duration 4 1 0 none ∧ offset_frames 1 0 < 4 ∧
      1 ≤ length_frames 4 1 0 none ∧
      (∀ e ∈ [PacketEvent.packet 0 (DecodeResult.ok [1/2])], goodEvent 1 0 e = true) ∧
      (trackSamples 0 [PacketEvent.packet 0 (DecodeResult.ok [1/2])]).length / 1 <
        offset_frames 1 0 + length_frames 4 1 0 none) ∧
    ∃ m, load 1 4 1 false 0 none 0
        ([PacketEvent.packet 0 (DecodeResult.ok [1/2])] ++ PacketEvent.ioEof :: []) = .ok m
      ∧ m.rows = 1 ∧ m.cols = length_frames 4 1 0 none
      ∧ ∀ c j,
          (trackSamples 0 [PacketEvent.packet 0 (DecodeResult.ok [1/2])]).length / 1 -
            offset_frames 1 0 ≤ j →
          m.data c j = 0 := by
  have heff : 0 < effective_duration 4 1 0 none := by norm_num [effective_duration]
  have hoF : offset_frames 1 0 = 0 := by
    rw [offset_frames]
    exact f64toU32_eval _ 0 (by norm_num) (by norm_num) (by norm_num)
  have hlF : length_frames 4 1 0 none = 4 := by
    have he : effective_duration 4 1 0 none = 4 := by norm_num [effective_duration]
    rw [length_frames, he]
    exact f64toU32_eval _ 4 (by norm_num) (by norm_num) (by norm_num)
  have hgood : ∀ e ∈ [PacketEvent.packet 0 (DecodeResult.ok [1/2])],
      goodEvent 1 0 e = true := by
    intro e he
    simp only [List.mem_singleton] at he
    subst he
    rfl
  have hshort : (trackSamples 0 [PacketEvent.packet 0 (DecodeResult.ok [1/2])]).length / 1 <
      offset_frames 1 0 + length_frames 4 1 0 none := by
    rw [hoF, hlF]
    decide
  exact ⟨⟨le_refl 1, heff, by rw [hoF]; norm_num, by rw [hlF]; norm_num, hgood, hshort⟩,
    c2_short_stream_amended 1 4 1 0 0 none [PacketEvent.packet 0 (DecodeResult.ok [1/2])] []
      (le_refl 1) heff (by rw [hoF]; norm_num) (by rw [hlF]; norm_num) hgood hshort⟩

/-- C5 (amended): while the window is still unfilled, a packet-read error other
than end-of-stream and a decoder `DecodeError` both propagate immediately and
fail the whole load; but a decoder error of any other kind is swallowed like
end-of-stream — the loop stops and `load` returns the partial (zero-padded)
matrix successfully. End-of-stream is benign irrespective of
`remaining_length` (see C2). -/
theorem c5_error_propagation_amended (channels nFrames sr trackId : Nat) (offset : ℚ)
    (duration : Option ℚ) (p q : List PacketEvent) (msg : String)
    (hch : 1 ≤ channels)
    (heff : 0 < effective_duration nFrames sr offset duration)
    (hoffF : offset_frames sr offset < nFrames)
    (hlenF : 1 ≤ length_frames nFrames sr offset duration)
    (hgood : ∀ e ∈ p, goodEvent channels trackId e = true)
    (hshort : (trackSamples trackId p).length / channels <
      offset_frames sr offset + length_frames nFrames sr offset duration) :
    load channels nFrames sr false offset duration trackId
        (p ++ PacketEvent.readErr :: q) = .error .packetReadError
    ∧ load channels nFrames sr false offset duration trackId
        (p ++ PacketEvent.packet trackId (.decodeErr msg) :: q) =
          .error (.decodeFault msg)
    ∧ exceptIsOk (load channels nFrames sr false offset duration trackId
        (p ++ PacketEvent.packet trackId .otherErr :: q)) = true := by
  obtain ⟨arr1, hq, hr, hc, hd⟩ := runLoop_traverse channels trackId p
    (offset_frames sr offset) (length_frames nFrames sr offset duration) 0
    (mkZeros channels (length_frames nFrames sr offset duration)) hch hgood rfl
    (by simp [mkZeros]) hlenF hshort
  refine ⟨?_, ?_, ?_⟩
  · simp only [load]
    rw [if_neg (not_le.mpr heff), if_neg (by omega : ¬ nFrames ≤ offset_frames sr offset),
      hq (PacketEvent.readErr :: q), runLoop_readErr]
  · simp only [load]
    rw [if_neg (not_le.mpr heff), if_neg (by omega : ¬ nFrames ≤ offset_frames sr offset),
      hq (PacketEvent.packet trackId (.decodeErr msg) :: q), runLoop_decodeErr]
  · have hload : load channels nFrames sr false offset duration trackId
        (p ++ PacketEvent.packet trackId .otherErr :: q) = .ok arr1 := by
      simp only [load]
      rw [if_neg (not_le.mpr heff), if_neg (by omega : ¬ nFrames ≤ offset_frames sr offset),
        hq (PacketEvent.packet trackId .otherErr :: q), runLoop_otherErr]
      simp only
      rw [if_neg Bool.false_ne_true]
    rw [hload]
    rfl

/-- C5 amended witness: after one good packet (1 of 4 frames), a read error and
a DecodeError fail the load, while any other decoder error yields success. -/
theorem c5_error_propagation_amended_witness :
    (1 ≤ 1 ∧ 0 < effective_duration 4 1 0 none ∧ offset_frames 1 0 < 4 ∧
      1 ≤ length_frames 4 1 0 none ∧
      (∀ e ∈ [PacketEvent.packet 0 (DecodeResult.ok [1/2])], goodEvent 1 0 e = true) ∧
      (trackSamples 0 [PacketEvent.packet 0 (DecodeResult.ok [1/2])]).length / 1 <
        offset_frames 1 0 + length_frames 4 1 0 none) ∧
    (load 1 4 1 false 0 none 0
        ([PacketEvent.packet 0 (DecodeResult.ok [1/2])] ++ PacketEvent.readErr :: []) =
          .error .packetReadError
    ∧ load 1 4 1 false 0 none 0
        ([PacketEvent.packet 0 (DecodeResult.ok [1/2])] ++
          PacketEvent.packet 0 (.decodeErr "bad packet") :: []) =
          .error (.decodeFault "bad packet")
    ∧ exceptIsOk (load 1 4 1 false 0 none 0
        ([PacketEvent.packet 0 (DecodeResult.ok [1/2])] ++
          PacketEvent.packet 0 .otherErr :: [])) = true) := by
  have heff : 0 < effective_duration 4 1 0 none := by norm_num [effective_duration]
  have hoF : offset_frames 1 0 = 0 := by
    rw [offset_frames]
    exact f64toU32_eval _ 0 (by norm_num) (by norm_num) (by norm_num)
  have hlF : length_frames 4 1 0 none = 4 := by
    have he : effective_duration 4 1 0 none = 4 := by norm_num [effective_duration]
    rw [length_frames, he]
    exact f64toU32_eval _ 4 (by norm_num) (by norm_num) (by norm_num)
  have hgood : ∀ e ∈ [PacketEvent.packet 0 (DecodeResult.ok [1/2])],
      goodEvent 1 0 e = true := by
    intro e he
    simp only [List.mem_singleton] at he
    subst he
    rfl
  have hshort : (trackSamples 0 [PacketEvent.packet 0 (DecodeResult.ok [1/2])]).length / 1 <
      offset_frames 1 0 + length_frames 4 1 0 none := by
    rw [hoF, hlF]
    decide
  exact ⟨⟨le_refl 1, heff, by rw [hoF]; norm_num, by rw [hlF]; norm_num, hgood, hshort⟩,
    c5_error_propagation_amended 1 4 1 0 0 none
      [PacketEvent.packet 0 (DecodeResult.ok [1/2])] [] "bad packet"
      (le_refl 1) heff (by rw [hoF]; norm_num) (by rw [hlF]; norm_num) hgood hshort⟩

/-- Unwritten-region lemma for the packet loop: on any event stream whose
selected-track packets each decode to a whole number of frames, every column at
or beyond `idx + (delivered source frames / channels - offset)` survives the
loop untouched, because the loop writes only the in-window frames actually
delivered. -/
theorem runLoop_zero_tail (channels trackId : Nat) (events : List PacketEvent)
    (off dur idx : Nat) (arr : Mat) (m : Mat)
    (hdvd : ∀ s2, PacketEvent.packet trackId (DecodeResult.ok s2) ∈ events →
      channels ∣ s2.length)
    (hrows : arr.rows = channels)
    (hcols : idx + dur ≤ arr.cols)
    (hzero : dur = 0 → arr.cols ≤ idx)
    (h : runLoop channels trackId events ⟨off, dur, idx, arr⟩ = .ok m) :
    ∀ c j, idx + ((trackSamples trackId events).length / channels - off) ≤ j →
      m.data c j = arr.data c j := by
  induction events generalizing off dur idx arr with
  | nil =>
    rw [runLoop_nil] at h
    injection h with h
    subst h
    exact fun c j _ => rfl
  | cons e rest ih =>
    have hdrest : ∀ s2, PacketEvent.packet trackId (DecodeResult.ok s2) ∈ rest →
        channels ∣ s2.length :=
      fun s2 hs2 => hdvd s2 (List.mem_cons_of_mem _ hs2)
    cases e with
    | ioEof =>
      rw [runLoop_eof] at h
      injection h with h
      subst h
      exact fun c j _ => rfl
    | readErr => rw [runLoop_readErr] at h; cases h
    | packet tid dec =>
      rcases eq_or_ne tid trackId with heq | ht
      · replace heq := heq.symm
        subst heq
        cases dec with
        | decodeErr msg => rw [runLoop_decodeErr] at h; cases h
        | otherErr =>
          rw [runLoop_otherErr] at h
          injection h with h
          subst h
          exact fun c j _ => rfl
        | ok samples =>
          rw [runLoop_packet] at h
          dsimp only at h
          by_cases hlen : 2 ^ 32 ≤ samples.length
          · rw [if_pos hlen] at h; cases h
          · rw [if_neg hlen] at h
            by_cases hch0 : channels = 0
            · rw [if_pos hch0] at h; cases h
            · rw [if_neg hch0] at h
              have hdv : channels ∣ samples.length :=
                hdvd samples (List.mem_cons_self _ _)
              obtain ⟨f, hgen⟩ : ∃ f, samples.length / channels = f := ⟨_, rfl⟩
              have hfl : samples.length = f * channels := by
                obtain ⟨k, hk⟩ := hdv
                rw [hk, Nat.mul_div_cancel_left _ (by omega : 0 < channels)] at hgen
                rw [hk, hgen, Nat.mul_comm]
              obtain ⟨lr, hlr⟩ :
                  ∃ lr, (trackSamples trackId rest).length / channels = lr := ⟨_, rfl⟩
              have hdiv : (trackSamples trackId
                    (PacketEvent.packet trackId (DecodeResult.ok samples) :: rest)).length
                    / channels = f + lr := by
                rw [trackSamples_cons_ok, List.length_append,
                  add_div_of_dvd_left (by omega) hdv, hgen, hlr]
              by_cases hskip : samples.length / channels ≤ off
              · rw [if_pos hskip] at h
                rw [hgen] at h hskip
                have htail := ih (off - f) dur idx arr hdrest hrows hcols hzero h
                intro c j hj
                rw [hdiv] at hj
                exact htail c j (by rw [hlr]; omega)
              · rw [if_neg hskip] at h
                rw [hgen] at hskip
                have hdroplen : (samples.drop (off * channels)).length
                    = (f - off) * channels := by
                  rw [List.length_drop, hfl, Nat.sub_mul]
                by_cases hdur0 : dur = 0
                · have hne : samples.drop (off * channels) ≠ [] := by
                    intro hc
                    have hlc := congrArg List.length hc
                    rw [hdroplen] at hlc
                    simp only [List.length_nil] at hlc
                    rcases Nat.mul_eq_zero.mp hlc with h9 | h9 <;> omega
                  cases hd : samples.drop (off * channels) with
                  | nil => exact absurd hd hne
                  | cons x rest2 =>
                    rw [hd, consumeRun_cons] at h
                    have hsc : setCell arr (0 % channels) idx x = none := by
                      rw [setCell, if_neg]
                      rintro ⟨-, h9⟩
                      have h10 := hzero hdur0
                      omega
                    rw [hsc] at h
                    cases h
                · obtain ⟨arrC, hcr, hCr, hCc, hCd⟩ := consumeRun_spec channels (f - off)
                    (samples.drop (off * channels)) 0 idx dur arr (by omega) hdroplen
                    (dvd_zero channels) hrows hcols (by omega)
                  rw [hcr] at h
                  simp only at h
                  by_cases hble : dur ≤ f - off
                  · rw [if_pos (decide_eq_true hble)] at h
                    injection h with h
                    subst h
                    intro c j hj
                    rw [hdiv] at hj
                    rw [hCd, if_neg]
                    rintro ⟨-, -, h9⟩
                    have h10 : min dur (f - off) ≤ f - off := Nat.min_le_right _ _
                    omega
                  · rw [if_neg (by rw [decide_eq_false hble]; exact Bool.false_ne_true)] at h
                    have hmin : min dur (f - off) = f - off := by omega
                    rw [hmin] at h
                    have htail := ih 0 (dur - (f - off)) (idx + (f - off)) arrC
                      hdrest
                      (hCr.trans hrows)
                      (by rw [hCc]; omega)
                      (fun h0 => absurd h0 (by omega))
                      h
                    intro c j hj
                    rw [hdiv] at hj
                    rw [htail c j (by rw [hlr]; omega)]
                    rw [hCd, if_neg]
                    rintro ⟨-, -, h9⟩
                    rw [hmin] at h9
                    omega
      · rw [runLoop_skip ht] at h
        have htail := ih off dur idx arr hdrest hrows hcols hzero h
        intro c j hj
        rw [trackSamples_cons_skip ht] at hj
        exact htail c j hj

/-- C10: whenever `load` returns without failing, the matrix has exactly
`channels` rows (1 row when `mono = true`) and exactly the column count computed
from the effective duration at allocation time; and — provided every
selected-track packet decodes to a whole number of frames — every cell the
packet loop never writes still holds 0.0: all columns at or beyond the number
of delivered in-window source frames, `(trackSamples).length / channels -
offset_frames`, are zero. In particular a stream exhausted before the window is
filled yields the full-size matrix with zero trailing columns. -/
theorem c10_result_shape_zero_fill (channels nFrames sr : Nat) (mono : Bool) (offset : ℚ)
    (duration : Option ℚ) (trackId : Nat) (events : List PacketEvent) (m : Mat)
    (h : load channels nFrames sr mono offset duration trackId events = .ok m) :
    m.rows = (if mono then 1 else channels) ∧
    m.cols = length_frames nFrames sr offset duration ∧
    ((∀ s2, PacketEvent.packet trackId (DecodeResult.ok s2) ∈ events →
        channels ∣ s2.length) →
      ∀ c j, (trackSamples trackId events).length / channels - offset_frames sr offset ≤ j →
        m.data c j = 0) := by
  simp only [load] at h
  by_cases h1 : effective_duration nFrames sr offset duration ≤ 0
  · rw [if_pos h1] at h; cases h
  · rw [if_neg h1] at h
    by_cases h2 : nFrames ≤ offset_frames sr offset
    · rw [if_pos h2] at h; cases h
    · rw [if_neg h2] at h
      cases hloop : runLoop channels trackId events
          ⟨offset_frames sr offset, length_frames nFrames sr offset duration, 0,
            mkZeros channels (length_frames nFrames sr offset duration)⟩ with
      | error e => rw [hloop] at h; cases h
      | ok arr2 =>
        rw [hloop] at h
        obtain ⟨hrows, hcols, -⟩ := runLoop_pres _ _ _ _ _ hloop
        simp only [mkZeros] at hrows hcols
        have htail : ∀ (hdvd : ∀ s2,
              PacketEvent.packet trackId (DecodeResult.ok s2) ∈ events →
                channels ∣ s2.length)
            (c j : Nat),
            (trackSamples trackId events).length / channels - offset_frames sr offset ≤ j →
            arr2.data c j = 0 := by
          intro hdvd c j hj
          obtain ⟨B, hB⟩ : ∃ B, (trackSamples trackId events).length / channels = B :=
            ⟨_, rfl⟩
          rw [hB] at hj
          have hz := runLoop_zero_tail channels trackId events
            (offset_frames sr offset) (length_frames nFrames sr offset duration) 0
            (mkZeros channels (length_frames nFrames sr offset duration)) arr2
            hdvd rfl (by simp [mkZeros]) (fun h0 => by simp [mkZeros, h0]) hloop
          rw [hz c j (by rw [hB]; omega)]
          rfl
        cases mono with
        | false =>
          simp only [Bool.false_eq_true, if_false] at h
          injection h with h
          subst h
          exact ⟨by simp [hrows], hcols, fun hdvd c j hj => htail hdvd c j hj⟩
        | true =>
          simp only [if_true] at h
          cases hm : to_mono_ndarray arr2 with
          | none => rw [hm] at h; cases h
          | some arr3 =>
            rw [hm] at h
            injection h with h
            subst h
            rw [to_mono_ndarray] at hm
            by_cases hz : arr2.rows = 0
            · rw [if_pos hz] at hm; cases hm
            · rw [if_neg hz] at hm
              injection hm with hm
              subst hm
              refine ⟨by simp, by simp [hcols], fun hdvd c j hj => ?_⟩
              show (∑ i ∈ Finset.range arr2.rows, arr2.data i j) / (arr2.rows : ℚ) = 0
              rw [Finset.sum_congr rfl fun i _ => htail hdvd i j hj]
              simp

/-- C10 witness: a concrete empty stream yields the all-zero full-size matrix,
with the divisibility proviso holding vacuously and the zero bound at column 0. -/
theorem c10_result_shape_zero_fill_witness :
    load 2 3 1 false 0 none 0 [] = .ok (mkZeros 2 3) ∧
    ((mkZeros 2 3).rows = (if false then 1 else 2) ∧
      (mkZeros 2 3).cols = length_frames 3 1 0 none ∧
      ((∀ s2, PacketEvent.packet 0 (DecodeResult.ok s2) ∈ ([] : List PacketEvent) →
          2 ∣ s2.length) →
        ∀ c j, (trackSamples 0 []).length / 2 - offset_frames 1 0 ≤ j →
          (mkZeros 2 3).data c j = 0)) := by
  have h1 : effective_duration 3 1 0 none = 3 := by norm_num [effective_duration]
  have h2 : offset_frames 1 0 = 0 := by
    rw [offset_frames]; exact f64toU32_eval _ 0 (by norm_num) (by norm_num) (by norm_num)
  have h3 : length_frames 3 1 0 none = 3 := by
    rw [length_frames, h1]; exact f64toU32_eval _ 3 (by norm_num) (by norm_num) (by norm_num)
  have hload : load 2 3 1 false 0 none 0 [] = .ok (mkZeros 2 3) := by
    simp only [load]
    rw [if_neg (by rw [h1]; norm_num), if_neg (by rw [h2]; omega), h3, runLoop_nil]
    rfl
  exact ⟨hload, c10_result_shape_zero_fill 2 3 1 false 0 none 0 [] (mkZeros 2 3) hload⟩

end AudioTest
